import Mathlib

/-! Verification of the order-matching engine.

A shallow embedding of the Go order-matching engine
(`src/engine/order.go`, `src/engine/orderbook.go` — shipped inside
`service_availability.go` in this checkout —, `src/engine/matcher.go`,
`src/handlers/order_handler.go`) together with proofs and refutations of
the specification's claims.

Modelling conventions:
* `int64` quantities and prices become `Int`.  None of the embedded
  operations can overflow a 64-bit integer on inputs that passed the
  engine's validation (fills are bounded by existing quantities), so the
  arithmetic is modelled exactly.
* The Go `btree.BTree` keyed by price is modelled as a list of price
  levels in its iteration order: bids sorted by strictly descending
  price, asks by strictly ascending price; `Min()` is the head.
* Go's `map[string]*Order` (the per-book id-map) is an association list
  `OrdersMap`.  Price-level queues store order ids and dereference
  through the id-map; this is faithful because every queue entry of a
  reachable book is also in the id-map, and `Order.Fill` mutations are
  visible through every alias.
* Trade ids (`uuid.New()`) and wall-clock timestamps are environmental
  and carry no information used by any claim; the `Trade` record keeps
  the price, quantity and the two order ids.
-/

namespace MatchEngine

/-- `OrderSide` from `order.go`. -/
inductive OrderSide where
  | buy
  | sell
deriving DecidableEq, Repr

/-- `OrderType` from `order.go`. -/
inductive OrderType where
  | limit
  | market
deriving DecidableEq, Repr

/-- `OrderStatus` from `order.go`. -/
inductive OrderStatus where
  | accepted
  | partialFill
  | filled
  | cancelled
deriving DecidableEq, Repr

/-- `Order` from `order.go` (the `Timestamp` field is wall-clock
metadata used by no embedded operation and is omitted). -/
structure Order where
  id : String
  symbol : String
  side : OrderSide
  type : OrderType
  price : Int
  quantity : Int
  filledQuantity : Int
  status : OrderStatus
deriving DecidableEq, Repr

/-- `Order.RemainingQuantity` from `order.go`. -/
def Order.remainingQuantity (o : Order) : Int :=
  o.quantity - o.filledQuantity

/-- `Order.IsFilled` from `order.go`. -/
def Order.isFilled (o : Order) : Bool :=
  o.quantity ≤ o.filledQuantity

/-- `Order.Fill` from `order.go`: adds to the fill counter and derives
the status from the new counter. -/
def Order.fill (o : Order) (q : Int) : Order :=
  let newFilled := o.filledQuantity + q
  { o with
    filledQuantity := newFilled
    status := if o.quantity ≤ newFilled then .filled else .partialFill }

/-- `Trade` from `order.go` (trade id and timestamp omitted, see module
comment). -/
structure Trade where
  price : Int
  quantity : Int
  buyOrderId : String
  sellOrderId : String
deriving DecidableEq, Repr

/-- `PriceLevel` from `order.go`; the FIFO queue holds order ids. -/
structure PriceLevel where
  price : Int
  orders : List String
deriving DecidableEq, Repr

/-- The Go `map[string]*Order` of a book. -/
abbrev OrdersMap := List (String × Order)

/-- Go map read `ob.Orders[id]`. -/
def lookupOrder (m : OrdersMap) (id : String) : Option Order :=
  match m.find? (fun p => p.1 = id) with
  | some p => some p.2
  | none => none

/-- Go map write `ob.Orders[id] = o` (overwrite or insert). -/
def setOrder (m : OrdersMap) (id : String) (o : Order) : OrdersMap :=
  match m with
  | [] => [(id, o)]
  | p :: rest => if p.1 = id then (id, o) :: rest else p :: setOrder rest id o

/-- Go map delete `delete(ob.Orders, id)`. -/
def eraseOrder (m : OrdersMap) (id : String) : OrdersMap :=
  match m with
  | [] => []
  | p :: rest => if p.1 = id then rest else p :: eraseOrder rest id

/-- `OrderBook` from `orderbook.go`: the two price trees in iteration
order and the id-map. -/
structure OrderBook where
  symbol : String
  bids : List PriceLevel
  asks : List PriceLevel
  orders : OrdersMap
deriving DecidableEq, Repr

/-- Remaining quantity of the order an id dereferences to (a queue id of
a reachable book always dereferences; missing ids count 0). -/
def remainingOf (m : OrdersMap) (id : String) : Int :=
  match lookupOrder m id with
  | some o => o.remainingQuantity
  | none => 0

/-- Sum of remaining quantities over a level's queue, as computed by
`GetBestBid`/`GetBestAsk`/`GetOrderBookSnapshot`. -/
def levelAggregate (m : OrdersMap) (L : PriceLevel) : Int :=
  L.orders.foldr (fun id acc => remainingOf m id + acc) 0

/-- Insertion into the ascending asks tree: `tree.Get` by exact price,
append to the queue on a hit, otherwise `ReplaceOrInsert` a fresh level
at its sorted position (`AddOrder`, `orderbook.go`). -/
def insertLevelAsc (levels : List PriceLevel) (p : Int) (id : String) : List PriceLevel :=
  match levels with
  | [] => [⟨p, [id]⟩]
  | L :: rest =>
    if p = L.price then ⟨L.price, L.orders ++ [id]⟩ :: rest
    else if p < L.price then ⟨p, [id]⟩ :: L :: rest
    else L :: insertLevelAsc rest p id

/-- Insertion into the descending bids tree (`AddOrder`, `orderbook.go`). -/
def insertLevelDesc (levels : List PriceLevel) (p : Int) (id : String) : List PriceLevel :=
  match levels with
  | [] => [⟨p, [id]⟩]
  | L :: rest =>
    if p = L.price then ⟨L.price, L.orders ++ [id]⟩ :: rest
    else if L.price < p then ⟨p, [id]⟩ :: L :: rest
    else L :: insertLevelDesc rest p id

/-- `OrderBook.AddOrder` from `orderbook.go`: unconditionally writes the
id-map entry and appends the order at the tail of its side's price-level
queue, creating the level if absent.  There is no duplicate-id check. -/
def addOrder (ob : OrderBook) (o : Order) : OrderBook :=
  let m := setOrder ob.orders o.id o
  match o.side with
  | .buy => { ob with orders := m, bids := insertLevelDesc ob.bids o.price o.id }
  | .sell => { ob with orders := m, asks := insertLevelAsc ob.asks o.price o.id }

/-- `tree.Get` by exact price. -/
def findLevel (levels : List PriceLevel) (p : Int) : Option PriceLevel :=
  levels.find? (fun L => L.price = p)

/-- Remove the first queue entry whose order id matches (`RemoveOrder`'s
scan over `priceLevel.Orders`). -/
def removeFirstId (q : List String) (id : String) : List String :=
  match q with
  | [] => []
  | x :: rest => if x = id then rest else x :: removeFirstId rest id

/-- In the level with price `p`: drop the first occurrence of `id` from
its queue, then delete the level if its queue became empty
(`RemoveOrder`, `orderbook.go`, including the empty-level deletion). -/
def removeFromLevels (levels : List PriceLevel) (p : Int) (id : String) : List PriceLevel :=
  match levels with
  | [] => []
  | L :: rest =>
    if L.price = p then
      let q := removeFirstId L.orders id
      if q.isEmpty then rest else ⟨L.price, q⟩ :: rest
    else L :: removeFromLevels rest p id

/-- `OrderBook.RemoveOrder` from `orderbook.go`. -/
def removeOrder (ob : OrderBook) (id : String) : Bool × OrderBook :=
  match lookupOrder ob.orders id with
  | none => (false, ob)
  | some o =>
    let levels := match o.side with | .buy => ob.bids | .sell => ob.asks
    match findLevel levels o.price with
    | none => (false, { ob with orders := eraseOrder ob.orders id })
    | some _ =>
      let levels' := removeFromLevels levels o.price id
      match o.side with
      | .buy => (true, { ob with bids := levels', orders := eraseOrder ob.orders id })
      | .sell => (true, { ob with asks := levels', orders := eraseOrder ob.orders id })

/-- `GetBestBid`/`GetBestAsk`: the head of the side's iteration order;
returns nothing when the tree is empty or the head level's queue is
empty. -/
def bestOfSide (m : OrdersMap) (levels : List PriceLevel) : Option (Int × Int) :=
  match levels with
  | [] => none
  | L :: _ => if L.orders.isEmpty then none else some (L.price, levelAggregate m L)

/-- `OrderBookSnapshot` entry: `(price, aggregate quantity)`. -/
abbrev SnapshotLevel := Int × Int

/-- `OrderBook.GetOrderBookSnapshot` from `orderbook.go`: up to `depth`
levels per side in iteration order, each with its on-demand aggregate.
No level is skipped — a zero-aggregate level is emitted like any other. -/
def getOrderBookSnapshot (ob : OrderBook) (depth : Nat) :
    List SnapshotLevel × List SnapshotLevel :=
  ((ob.bids.take depth).map (fun L => (L.price, levelAggregate ob.orders L)),
   (ob.asks.take depth).map (fun L => (L.price, levelAggregate ob.orders L)))

/-- `MatchResult` from `matcher.go`. -/
structure MatchResult where
  status : OrderStatus
  filledQuantity : Int
  remainingQuantity : Int
  trades : List Trade
deriving DecidableEq, Repr

/-- The side of the book an incoming order matches against. -/
def opposing (ob : OrderBook) (s : OrderSide) : List PriceLevel :=
  match s with
  | .buy => ob.asks
  | .sell => ob.bids

/-- Write back the walked opposing side and the id-map. -/
def withOpposing (ob : OrderBook) (s : OrderSide) (levels : List PriceLevel)
    (m : OrdersMap) : OrderBook :=
  match s with
  | .buy => { ob with asks := levels, orders := m }
  | .sell => { ob with bids := levels, orders := m }

/-- The limit walk's price test (`matcher.go` lines 91/102): a buy stops
when its price is below the best ask, a sell when its price is above the
best bid. -/
def priceCrosses (o : Order) (levelPrice : Int) : Bool :=
  match o.side with
  | .buy => levelPrice ≤ o.price
  | .sell => o.price ≤ levelPrice

/-- Result of running the inner per-level loop of the matcher. -/
structure LevelResult where
  order : Order
  remaining : Int
  filled : Int
  queue : List String
  omap : OrdersMap
  trades : List Trade
  deleted : Bool
deriving Repr

/-- The trade record built at `matcher.go` lines 142-157 (ids assigned
by the incoming order's side). -/
def mkTrade (o : Order) (rid : String) (price qty : Int) : Trade :=
  match o.side with
  | .buy => { price := price, quantity := qty, buyOrderId := o.id, sellOrderId := rid }
  | .sell => { price := price, quantity := qty, buyOrderId := rid, sellOrderId := o.id }

/-- The inner loop of `matchLimitOrder` (`matcher.go` lines 114-184)
over the best level's queue.  `remaining` is the local `remainingQty`.
Inside the loop, `orderBook.RemoveOrder(restingOrder.ID)` resolves to
this very level (a queued order's `Side`/`Price` fields name its level),
so its effect is: drop the queue head, erase the id-map entry, and mark
the level deleted when the queue empties. -/
def matchLevelLimit (o : Order) (remaining : Int) (price : Int)
    (queue : List String) (m : OrdersMap) : LevelResult :=
  if ¬(0 < remaining ∧ o.isFilled = false) then
    -- loop guard, line 114
    ⟨o, remaining, 0, queue, m, [], false⟩
  else
    match queue with
    | [] => ⟨o, remaining, 0, [], m, [], false⟩ -- line 116: break, level kept
    | rid :: rest =>
      match lookupOrder m rid with
      | none =>
        -- a queue id of a reachable book always dereferences; treated as
        -- the zero-remaining dequeue of lines 122-130
        matchLevelLimit o remaining price rest m
      | some r =>
        if r.remainingQuantity ≤ 0 then
          -- lines 122-130: stale head, dequeue and continue
          matchLevelLimit o remaining price rest m
        else
          let executionQty := if r.remainingQuantity < remaining then r.remainingQuantity else remaining
          if executionQty ≤ 0 then
            -- line 138: unreachable (both sides positive), break
            ⟨o, remaining, 0, rid :: rest, m, [], false⟩
          else
            let t := mkTrade o rid price executionQty
            let o' := o.fill executionQty
            let r' := r.fill executionQty
            let m' := setOrder m rid r'
            let remaining' := o'.quantity - o'.filledQuantity -- line 165
            if remaining' ≤ 0 ∨ o'.isFilled = true then
              -- line 167: break BEFORE the resting order is removed,
              -- even when the resting order also just became filled
              ⟨o', remaining', executionQty, rid :: rest, m', [t], false⟩
            else if r'.isFilled = true then
              -- lines 171-173: RemoveOrder(resting); then lines 176-183
              let m2 := eraseOrder m' rid
              if rest.isEmpty then
                ⟨o', remaining', executionQty, [], m2, [t], true⟩
              else
                let res := matchLevelLimit o' remaining' price rest m2
                ⟨res.order, res.remaining, executionQty + res.filled, res.queue,
                  res.omap, t :: res.trades, res.deleted⟩
            else
              -- resting not filled forces executionQty = remaining, so
              -- remaining' ≤ 0 whenever remaining = o.quantity -
              -- o.filledQuantity held on entry (true for every
              -- submission, which starts with filledQuantity 0); the Go
              -- loop exits through its guard here
              ⟨o', remaining', executionQty, rid :: rest, m', [t], false⟩

/-- Result of walking the opposing side. -/
structure WalkResult where
  order : Order
  remaining : Int
  filled : Int
  levels : List PriceLevel
  omap : OrdersMap
  trades : List Trade
deriving Repr

/-- The outer loop of `matchLimitOrder` (`matcher.go` lines 81-189): the
best opposing level is the head of the side's iteration order
(`GetBestAsk`/`GetBestBid` return nothing when the head level's queue is
empty, blocking the walk).  The loop re-enters only after the head level
was deleted with quantity still unfilled; in every other exit of the
inner loop the next `GetBest` query or the `remainingQty` checks stop
the walk. -/
def matchLimitLevels (o : Order) (remaining : Int) (levels : List PriceLevel)
    (m : OrdersMap) : WalkResult :=
  if remaining ≤ 0 then ⟨o, remaining, 0, levels, m, []⟩ -- line 81 guard
  else
    match levels with
    | [] => ⟨o, remaining, 0, [], m, []⟩ -- no best level: break
    | L :: rest =>
      if L.orders.isEmpty then ⟨o, remaining, 0, L :: rest, m, []⟩ -- GetBest: ok=false
      else if priceCrosses o L.price = false then
        ⟨o, remaining, 0, L :: rest, m, []⟩ -- lines 91/102: prices do not cross
      else
        let res := matchLevelLimit o remaining L.price L.orders m
        if res.deleted then
          if 0 < res.remaining then
            let w := matchLimitLevels res.order res.remaining rest res.omap
            ⟨w.order, w.remaining, res.filled + w.filled, w.levels, w.omap,
              res.trades ++ w.trades⟩
          else ⟨res.order, res.remaining, res.filled, rest, res.omap, res.trades⟩
        else
          ⟨res.order, res.remaining, res.filled, ⟨L.price, res.queue⟩ :: rest,
            res.omap, res.trades⟩

/-- `matchLimitOrder` from `matcher.go`: walk the opposing side, then
classify by `result.FilledQuantity`/`remainingQty` (lines 191-203) and
insert the residual via `AddOrder`. -/
def matchLimitOrder (ob : OrderBook) (o : Order) : MatchResult × OrderBook :=
  let w := matchLimitLevels o o.quantity (opposing ob o.side) ob.orders
  let ob1 := withOpposing ob o.side w.levels w.omap
  if w.filled = 0 then
    ({ status := .accepted, filledQuantity := w.filled,
       remainingQuantity := w.remaining, trades := w.trades }, addOrder ob1 w.order)
  else if 0 < w.remaining then
    ({ status := .partialFill, filledQuantity := w.filled,
       remainingQuantity := w.remaining, trades := w.trades }, addOrder ob1 w.order)
  else
    ({ status := .filled, filledQuantity := w.filled,
       remainingQuantity := w.remaining, trades := w.trades }, ob1)

/-- Aggregate remaining quantity across a whole side (`matcher.go`
lines 218-234). -/
def sideAvailable (m : OrdersMap) (levels : List PriceLevel) : Int :=
  levels.foldr (fun L acc => levelAggregate m L + acc) 0

/-- `InsufficientLiquidityError` from `matcher.go`. -/
structure InsufficientLiquidityError where
  requested : Int
  available : Int
deriving DecidableEq, Repr

/-- The inner loop of `matchMarketOrder` (`matcher.go` lines 268-338).
After a resting order becomes filled, `RemoveOrder` already drops it
from the queue; lines 318-322 then slice the queue head off AGAIN,
silently discarding the next queued order (it stays in the id-map). -/
def matchLevelMarket (o : Order) (remaining : Int) (price : Int)
    (queue : List String) (m : OrdersMap) : LevelResult :=
  if remaining ≤ 0 then ⟨o, remaining, 0, queue, m, [], false⟩ -- loop guard, line 268
  else
    match queue with
    | [] => ⟨o, remaining, 0, [], m, [], false⟩ -- line 270: break, level kept
    | rid :: rest =>
      match lookupOrder m rid with
      | none => matchLevelMarket o remaining price rest m -- cf. matchLevelLimit
      | some r =>
        if r.remainingQuantity ≤ 0 then
          -- lines 276-283: stale head, dequeue and continue
          matchLevelMarket o remaining price rest m
        else
          let executionQty := if r.remainingQuantity < remaining then r.remainingQuantity else remaining
          let t := mkTrade o rid price executionQty
          let o' := o.fill executionQty
          let r' := r.fill executionQty
          let m' := setOrder m rid r'
          let remaining' := remaining - executionQty -- line 314
          if r'.isFilled = true then
            -- line 317: RemoveOrder dequeues the head and erases the map
            -- entry (deleting the level if the queue emptied); lines
            -- 318-322 then slice the queue AGAIN: with more than one
            -- entry left the new head is dropped, otherwise the queue is
            -- cleared.  The cases below follow the remaining queue.
            let m2 := eraseOrder m' rid
            match rest with
            | [] =>
              -- RemoveOrder emptied the queue and deleted the level; the
              -- extra slice and line 330 are no-ops
              ⟨o', remaining', executionQty, [], m2, [t], true⟩
            | [x] =>
              -- one entry left is not "> 1": the slice clears the queue,
              -- silently dropping `x` (it stays in the id-map)
              if remaining' ≤ 0 then
                ⟨o', remaining', executionQty, [], m2, [t], false⟩ -- line 325 break
              else
                ⟨o', remaining', executionQty, [], m2, [t], true⟩ -- line 330: delete level
            | x :: y :: q2 =>
              -- the slice drops `x`, the entry behind the filled head
              if remaining' ≤ 0 then
                ⟨o', remaining', executionQty, y :: q2, m2, [t], false⟩ -- line 325 break
              else
                let res := matchLevelMarket o' remaining' price (y :: q2) m2
                ⟨res.order, res.remaining, executionQty + res.filled, res.queue,
                  res.omap, t :: res.trades, res.deleted⟩
          else
            -- resting not filled forces executionQty = remaining, hence
            -- remaining' = 0: line 325 breaks
            ⟨o', remaining', executionQty, rid :: rest, m', [t], false⟩

/-- The outer loop of `matchMarketOrder` (`matcher.go` lines 244-339):
as the limit walk but without a price test. -/
def matchMarketLevels (o : Order) (remaining : Int) (levels : List PriceLevel)
    (m : OrdersMap) : WalkResult :=
  if remaining ≤ 0 then ⟨o, remaining, 0, levels, m, []⟩
  else
    match levels with
    | [] => ⟨o, remaining, 0, [], m, []⟩
    | L :: rest =>
      if L.orders.isEmpty then ⟨o, remaining, 0, L :: rest, m, []⟩
      else
        let res := matchLevelMarket o remaining L.price L.orders m
        if res.deleted then
          if 0 < res.remaining then
            let w := matchMarketLevels res.order res.remaining rest res.omap
            ⟨w.order, w.remaining, res.filled + w.filled, w.levels, w.omap,
              res.trades ++ w.trades⟩
          else ⟨res.order, res.remaining, res.filled, rest, res.omap, res.trades⟩
        else
          ⟨res.order, res.remaining, res.filled, ⟨L.price, res.queue⟩ :: rest,
            res.omap, res.trades⟩

deriving instance DecidableEq for Except

/-- `matchMarketOrder` from `matcher.go`: sum the whole opposing side
first; reject with `InsufficientLiquidityError` (performing no mutation)
when it cannot cover the order; otherwise walk the book.  The final
status is unconditionally `Filled` (line 342). -/
def matchMarketOrder (ob : OrderBook) (o : Order) :
    Except InsufficientLiquidityError MatchResult × OrderBook :=
  let totalAvailable := sideAvailable ob.orders (opposing ob o.side)
  if totalAvailable < o.quantity then
    (.error { requested := o.quantity, available := totalAvailable }, ob)
  else
    let w := matchMarketLevels o o.quantity (opposing ob o.side) ob.orders
    (.ok { status := .filled, filledQuantity := w.filled,
           remainingQuantity := w.remaining, trades := w.trades },
     withOpposing ob o.side w.levels w.omap)

/-- `Matcher.MatchOrder` (`matcher.go` lines 61-69) on a single book. -/
def matchOrder (ob : OrderBook) (o : Order) :
    Except InsufficientLiquidityError MatchResult × OrderBook :=
  match o.type with
  | .market => matchMarketOrder ob o
  | .limit => (.ok (matchLimitOrder ob o).1, (matchLimitOrder ob o).2)

/-- Outcome of `OrderHandler.CancelOrder`. -/
inductive CancelResult where
  | cancelled
  | notFound
  | alreadyFilled
deriving DecidableEq, Repr

/-- `OrderHandler.CancelOrder` (`order_handler.go` lines 186-237): scan
the books for the id; unknown ids fail NotFound; a Filled order fails
AlreadyFilled; otherwise `RemoveOrder` drops the order from the book
(the subsequent `SetStatus(Cancelled)` mutates the no-longer-reachable
object and is not observable through any book index). -/
def cancelOrder (books : List OrderBook) (id : String) : CancelResult × List OrderBook :=
  match books with
  | [] => (.notFound, [])
  | ob :: obs =>
    match lookupOrder ob.orders id with
    | some o =>
      if o.status = .filled then (.alreadyFilled, ob :: obs)
      else (.cancelled, (removeOrder ob id).2 :: obs)
    | none => ((cancelOrder obs id).1, ob :: (cancelOrder obs id).2)

/-- `OrderHandler.GetOrderStatus` (`order_handler.go` lines 295-324):
the first book indexing the id yields the order's live view. -/
def statusLookup (books : List OrderBook) (id : String) : Option Order :=
  match books with
  | [] => none
  | ob :: obs =>
    match lookupOrder ob.orders id with
    | some o => some o
    | none => statusLookup obs id

/-- `models.SubmitOrderRequest`. -/
structure SubmitOrderRequest where
  symbol : String
  side : String
  type : String
  price : Int
  quantity : Int
deriving DecidableEq, Repr

/-- `validateSubmitOrderRequest` (`order_handler.go` lines 425-450): the
first failing check's message, or none when the request is admitted to
matching.  A price on a MARKET order is not checked. -/
def validateSubmitOrderRequest (req : SubmitOrderRequest) : Option String :=
  if req.symbol = "" then some "Invalid order: symbol is required"
  else if req.side ≠ "BUY" ∧ req.side ≠ "SELL" then
    some "Invalid order: side must be BUY or SELL"
  else if req.type ≠ "LIMIT" ∧ req.type ≠ "MARKET" then
    some "Invalid order: type must be LIMIT or MARKET"
  else if req.quantity ≤ 0 then some "Invalid order: quantity must be positive"
  else if req.type = "LIMIT" ∧ req.price ≤ 0 then
    some "Invalid order: price must be positive for LIMIT orders"
  else none

/-! ## Concrete books used by the claim instances -/

/-- A fresh resting sell limit order. -/
def mkSellLimit (id : String) (p q : Int) : Order :=
  ⟨id, "AAPL", .sell, .limit, p, q, 0, .accepted⟩

/-- A fresh buy limit order. -/
def mkBuyLimit (id : String) (p q : Int) : Order :=
  ⟨id, "AAPL", .buy, .limit, p, q, 0, .accepted⟩

/-- A fresh market order. -/
def mkMarket (id : String) (s : OrderSide) (q : Int) : Order :=
  ⟨id, "AAPL", s, .market, 0, q, 0, .accepted⟩

/-- The empty book for symbol AAPL. -/
def emptyBook : OrderBook := ⟨"AAPL", [], [], []⟩

/-- One resting ask of 100 at price 15050 (reached by submitting that
sell to the empty book). -/
def oneAskBook : OrderBook := addOrder emptyBook (mkSellLimit "S" 15050 100)

/-- Asks 50 and 50 queued at price level 15050 (reached by two sell
submissions). -/
def twoAskBook : OrderBook :=
  addOrder (addOrder emptyBook (mkSellLimit "A" 15050 50)) (mkSellLimit "B" 15050 50)

/-- Asks 50, 50, 50 queued at price level 15050. -/
def threeAskBook : OrderBook :=
  addOrder twoAskBook (mkSellLimit "C" 15050 50)

/-- Asks 200, 300, 400 queued in arrival order at price level 15050
(the spec's time-priority scenario). -/
def fifoBook : OrderBook :=
  addOrder (addOrder (addOrder emptyBook (mkSellLimit "A" 15050 200))
    (mkSellLimit "B" 15050 300)) (mkSellLimit "C" 15050 400)

/-! ## C9 — input validation -/

/-- C9 counterexample: a MARKET order carrying the nonzero price 100
passes `validateSubmitOrderRequest` (no check rejects it), contradicting
the claim that submit rejects every market order with a nonzero
price. -/
theorem validate_market_with_price_admitted :
    validateSubmitOrderRequest ⟨"AAPL", "BUY", "MARKET", 100, 10⟩ = none := by
  decide

/-- C9 (amended): submit admits a request to matching exactly when the
symbol is non-empty, the side is BUY or SELL, the type is LIMIT or
MARKET, the quantity is positive, and a LIMIT order's price is positive;
the price of a MARKET order is not validated. -/
theorem validateSubmitOrderRequest_none_iff (req : SubmitOrderRequest) :
    validateSubmitOrderRequest req = none ↔
      req.symbol ≠ "" ∧ (req.side = "BUY" ∨ req.side = "SELL") ∧
      (req.type = "LIMIT" ∨ req.type = "MARKET") ∧ 0 < req.quantity ∧
      (req.type = "LIMIT" → 0 < req.price) := by
  unfold validateSubmitOrderRequest
  split_ifs with h1 h2 h3 h4 h5 <;> simp_all <;> try omega
  tauto

/-! ## C8 — duplicate admission -/

/-- C8 counterexample: admitting an order whose id `"S"` is already
indexed does not fail — `AddOrder` has no duplicate check — and mutates
the book: the level queue at 15050 afterwards holds `"S"` twice.  This
contradicts both halves of the claim (failure with DuplicateOrder, and
no id occurring more than once). -/
theorem addOrder_duplicate_id_mutates :
    (addOrder oneAskBook (mkSellLimit "S" 15050 7)).asks
        = [⟨15050, ["S", "S"]⟩] ∧
      addOrder oneAskBook (mkSellLimit "S" 15050 7) ≠ oneAskBook := by
  decide

/-- The price-level list of one side of a book. -/
def sideLevels (ob : OrderBook) (s : OrderSide) : List PriceLevel :=
  match s with
  | .buy => ob.bids
  | .sell => ob.asks

/-- The queue stored at price `p`, or `[]` when no such level exists. -/
def queueAt (levels : List PriceLevel) (p : Int) : List String :=
  match findLevel levels p with
  | some L => L.orders
  | none => []

theorem findLevel_eq_none (levels : List PriceLevel) (p : Int)
    (h : ∀ L ∈ levels, L.price ≠ p) : findLevel levels p = none := by
  simp only [findLevel, List.find?_eq_none, decide_eq_true_eq]
  exact h

theorem queueAt_cons_ne (L : PriceLevel) (rest : List PriceLevel) (p : Int)
    (h : L.price ≠ p) : queueAt (L :: rest) p = queueAt rest p := by
  simp [queueAt, findLevel, List.find?_cons, h]

theorem queueAt_cons_eq (L : PriceLevel) (rest : List PriceLevel) (p : Int)
    (h : L.price = p) : queueAt (L :: rest) p = L.orders := by
  simp [queueAt, findLevel, List.find?_cons, h]

theorem queueAt_of_all_ne (levels : List PriceLevel) (p : Int)
    (h : ∀ L ∈ levels, L.price ≠ p) : queueAt levels p = [] := by
  simp [queueAt, findLevel_eq_none levels p h]

theorem queueAt_insertLevelAsc (levels : List PriceLevel) (p : Int) (id : String)
    (h : List.Pairwise (fun a b => a.price < b.price) levels) :
    queueAt (insertLevelAsc levels p id) p = queueAt levels p ++ [id] := by
  induction levels with
  | nil => simp [insertLevelAsc, queueAt, findLevel]
  | cons L rest ih =>
    rw [List.pairwise_cons] at h
    by_cases h1 : p = L.price
    · simp only [insertLevelAsc, if_pos h1]
      rw [queueAt_cons_eq ⟨L.price, L.orders ++ [id]⟩ rest p h1.symm,
        queueAt_cons_eq L rest p h1.symm]
    · by_cases h2 : p < L.price
      · simp only [insertLevelAsc, if_neg h1, if_pos h2]
        rw [queueAt_cons_eq ⟨p, [id]⟩ (L :: rest) p rfl]
        have hz : queueAt (L :: rest) p = [] := by
          apply queueAt_of_all_ne
          intro M hM
          rcases List.mem_cons.mp hM with rfl | hM
          · omega
          · have := h.1 M hM; omega
        rw [hz]
        rfl
      · simp only [insertLevelAsc, if_neg h1, if_neg h2]
        rw [queueAt_cons_ne _ _ _ (by omega), queueAt_cons_ne _ _ _ (by omega)]
        exact ih h.2

theorem queueAt_insertLevelDesc (levels : List PriceLevel) (p : Int) (id : String)
    (h : List.Pairwise (fun a b => b.price < a.price) levels) :
    queueAt (insertLevelDesc levels p id) p = queueAt levels p ++ [id] := by
  induction levels with
  | nil => simp [insertLevelDesc, queueAt, findLevel]
  | cons L rest ih =>
    rw [List.pairwise_cons] at h
    by_cases h1 : p = L.price
    · simp only [insertLevelDesc, if_pos h1]
      rw [queueAt_cons_eq ⟨L.price, L.orders ++ [id]⟩ rest p h1.symm,
        queueAt_cons_eq L rest p h1.symm]
    · by_cases h2 : L.price < p
      · simp only [insertLevelDesc, if_neg h1, if_pos h2]
        rw [queueAt_cons_eq ⟨p, [id]⟩ (L :: rest) p rfl]
        have hz : queueAt (L :: rest) p = [] := by
          apply queueAt_of_all_ne
          intro M hM
          rcases List.mem_cons.mp hM with rfl | hM
          · omega
          · have := h.1 M hM; omega
        rw [hz]
        rfl
      · simp only [insertLevelDesc, if_neg h1, if_neg h2]
        rw [queueAt_cons_ne _ _ _ (by omega), queueAt_cons_ne _ _ _ (by omega)]
        exact ih h.2

theorem lookupOrder_setOrder_self (m : OrdersMap) (id : String) (o : Order) :
    lookupOrder (setOrder m id o) id = some o := by
  induction m with
  | nil => simp [setOrder, lookupOrder]
  | cons p rest ih =>
    by_cases h : p.1 = id
    · simp [setOrder, lookupOrder, h]
    · simp only [setOrder, if_neg h, lookupOrder, List.find?_cons]
      have : (decide (p.1 = id)) = false := by simpa using h
      simp only [this]
      simpa [lookupOrder] using ih

theorem addOrder_appends_tail (ob : OrderBook) (o : Order)
    (hb : List.Pairwise (fun a b => b.price < a.price) ob.bids)
    (ha : List.Pairwise (fun a b => a.price < b.price) ob.asks) :
    lookupOrder (addOrder ob o).orders o.id = some o ∧
    queueAt (sideLevels (addOrder ob o) o.side) o.price
      = queueAt (sideLevels ob o.side) o.price ++ [o.id] := by
  cases hside : o.side with
  | buy =>
    refine ⟨?_, ?_⟩
    · simp [addOrder, hside, lookupOrder_setOrder_self]
    · simp only [addOrder, hside, sideLevels]
      exact queueAt_insertLevelDesc ob.bids o.price o.id hb
  | sell =>
    refine ⟨?_, ?_⟩
    · simp [addOrder, hside, lookupOrder_setOrder_self]
    · simp only [addOrder, hside, sideLevels]
      exact queueAt_insertLevelAsc ob.asks o.price o.id ha

/-- C8 (amended): `add(order)` performs no duplicate-id check: it always
overwrites the id-map entry for the order's id and appends the id at the
tail of its side's price-level queue (creating the level if absent) —
even when the id is already indexed, in which case the id afterwards
occurs more than once across the book's queues. -/
theorem addOrder_overwrites_and_appends (ob : OrderBook) (o : Order)
    (hb : List.Pairwise (fun a b => b.price < a.price) ob.bids)
    (ha : List.Pairwise (fun a b => a.price < b.price) ob.asks) :
    lookupOrder (addOrder ob o).orders o.id = some o ∧
    queueAt (sideLevels (addOrder ob o) o.side) o.price
      = queueAt (sideLevels ob o.side) o.price ++ [o.id] :=
  addOrder_appends_tail ob o hb ha

/-- Witness for C8's amended theorem: adding a second order with the
already-indexed id `"S"` overwrites the map entry and appends `"S"`
again at the tail of the 15050 ask queue. -/
theorem addOrder_overwrites_and_appends_witness :
    lookupOrder (addOrder oneAskBook (mkSellLimit "S" 15050 7)).orders "S"
        = some (mkSellLimit "S" 15050 7) ∧
    queueAt (sideLevels (addOrder oneAskBook (mkSellLimit "S" 15050 7)) .sell) 15050
        = queueAt (sideLevels oneAskBook .sell) 15050 ++ ["S"] :=
  addOrder_overwrites_and_appends oneAskBook (mkSellLimit "S" 15050 7)
    (by decide) (by decide)

/-! ## C6 — snapshot -/

/-- C6 counterexample: submitting a sell of 100 at 15050 to the empty
book and then a buy limit of 100 at 15050 leaves the filled resting
order queued; the snapshot then emits the ask level `(15050, 0)` whose
aggregate quantity is zero, contradicting the claim that no
zero-aggregate level is emitted. -/
theorem snapshot_emits_zero_aggregate_level :
    getOrderBookSnapshot (matchLimitOrder oneAskBook (mkBuyLimit "B1" 15050 100)).2 10
      = ([], [(15050, 0)]) := by
  decide

/-- C6 (amended): for a book whose sides are sorted (bids strictly
descending, asks strictly ascending — the book invariant),
`snapshot(depth)` returns at most `depth` levels per side, bids in
strictly descending and asks in strictly ascending price order, each
entry reporting a stored level's price with the sum of remaining
quantities over the orders queued there; every stored level within the
depth is emitted, including one whose aggregate is zero.  The result is
a function of the book state alone. -/
theorem getOrderBookSnapshot_spec (ob : OrderBook) (depth : Nat)
    (hb : List.Pairwise (fun a b => b.price < a.price) ob.bids)
    (ha : List.Pairwise (fun a b => a.price < b.price) ob.asks) :
    (getOrderBookSnapshot ob depth).1.length ≤ depth ∧
    (getOrderBookSnapshot ob depth).2.length ≤ depth ∧
    List.Pairwise (fun x y => y.1 < x.1) (getOrderBookSnapshot ob depth).1 ∧
    List.Pairwise (fun x y => x.1 < y.1) (getOrderBookSnapshot ob depth).2 ∧
    (getOrderBookSnapshot ob depth).1
      = (ob.bids.take depth).map (fun L => (L.price, levelAggregate ob.orders L)) ∧
    (getOrderBookSnapshot ob depth).2
      = (ob.asks.take depth).map (fun L => (L.price, levelAggregate ob.orders L)) := by
  refine ⟨?_, ?_, ?_, ?_, rfl, rfl⟩
  · simp [getOrderBookSnapshot]
  · simp [getOrderBookSnapshot]
  · simp only [getOrderBookSnapshot, List.pairwise_map]
    exact hb.sublist (List.take_sublist depth ob.bids)
  · simp only [getOrderBookSnapshot, List.pairwise_map]
    exact ha.sublist (List.take_sublist depth ob.asks)

/-- Witness for C6's amended theorem at the walked three-level book of
the spec's market scenario. -/
theorem getOrderBookSnapshot_spec_witness :
    (getOrderBookSnapshot fifoBook 2).1.length ≤ 2 ∧
    (getOrderBookSnapshot fifoBook 2).2.length ≤ 2 ∧
    List.Pairwise (fun x y => y.1 < x.1) (getOrderBookSnapshot fifoBook 2).1 ∧
    List.Pairwise (fun x y => x.1 < y.1) (getOrderBookSnapshot fifoBook 2).2 ∧
    (getOrderBookSnapshot fifoBook 2).1
      = (fifoBook.bids.take 2).map (fun L => (L.price, levelAggregate fifoBook.orders L)) ∧
    (getOrderBookSnapshot fifoBook 2).2
      = (fifoBook.asks.take 2).map (fun L => (L.price, levelAggregate fifoBook.orders L)) :=
  getOrderBookSnapshot_spec fifoBook 2 (by decide) (by decide)

/-! ## C2 — market-order liquidity contract -/

/-- C2 failing input: the asks hold two orders of 50 at one price level
(aggregate 100, reached by two sell submissions); a market buy of 100
has sufficient liquidity, yet the submit returns status `Filled` with
filled quantity 50 ≠ 100: after the first resting order fills, the
queue-slicing at `matcher.go` lines 318-322 discards the second resting
order (which stays in the id-map) and the walk runs out of asks. -/
theorem market_order_partial_despite_liquidity :
    sideAvailable twoAskBook.orders (opposing twoAskBook .buy) = 100 ∧
    (matchMarketOrder twoAskBook (mkMarket "M" .buy 100)).1
      = .ok { status := .filled, filledQuantity := 50, remainingQuantity := 50,
              trades := [{ price := 15050, quantity := 50,
                           buyOrderId := "M", sellOrderId := "A" }] } ∧
    lookupOrder (matchMarketOrder twoAskBook (mkMarket "M" .buy 100)).2.orders "B"
      = some (mkSellLimit "B" 15050 50) ∧
    (matchMarketOrder twoAskBook (mkMarket "M" .buy 100)).2.asks = [] := by
  decide

/-! ## C3 — removal of filled resting orders -/

/-- C3 failing input: a resting ask of 100 at 15050 against an incoming
limit buy of 100 at 15050.  Both sides become `Filled` on the same
trade, and `matchLimitOrder` breaks (line 167) before the removal at
lines 171-173: the submit returns with the filled resting order still in
the level queue and the id-map, reachable through every book index. -/
theorem filled_resting_order_left_indexed :
    (matchLimitOrder oneAskBook (mkBuyLimit "B1" 15050 100)).1.status = .filled ∧
    (matchLimitOrder oneAskBook (mkBuyLimit "B1" 15050 100)).2.asks
      = [⟨15050, ["S"]⟩] ∧
    lookupOrder (matchLimitOrder oneAskBook (mkBuyLimit "B1" 15050 100)).2.orders "S"
      = some ⟨"S", "AAPL", .sell, .limit, 15050, 100, 100, .filled⟩ := by
  decide


theorem lookupOrder_setOrder_ne (m : OrdersMap) (id id' : String) (o : Order)
    (h : id' ≠ id) : lookupOrder (setOrder m id o) id' = lookupOrder m id' := by
  induction m with
  | nil => simp [setOrder, lookupOrder, List.find?_cons, Ne.symm h]
  | cons p rest ih =>
    by_cases hp : p.1 = id
    · simp [setOrder, hp, lookupOrder, List.find?_cons, Ne.symm h]
    · simp only [setOrder, if_neg hp, lookupOrder, List.find?_cons]
      by_cases hp' : p.1 = id'
      · simp [hp']
      · simp only [decide_eq_false hp']
        simpa [lookupOrder] using ih

theorem lookupOrder_eraseOrder_ne (m : OrdersMap) (id id' : String)
    (h : id' ≠ id) : lookupOrder (eraseOrder m id) id' = lookupOrder m id' := by
  induction m with
  | nil => simp [eraseOrder]
  | cons p rest ih =>
    by_cases hp : p.1 = id
    · simp [eraseOrder, hp, lookupOrder, List.find?_cons, Ne.symm h]
    · simp only [eraseOrder, if_neg hp, lookupOrder, List.find?_cons]
      by_cases hp' : p.1 = id'
      · simp [hp']
      · simp only [decide_eq_false hp']
        simpa [lookupOrder] using ih

/-- Everything the claims need about one run of the limit matcher's
inner loop. -/
def LevelSpec (o : Order) (remaining price : Int) (queue : List String)
    (m : OrdersMap) (res : LevelResult) : Prop :=
  res.order.id = o.id ∧ res.order.symbol = o.symbol ∧ res.order.side = o.side ∧
  res.order.type = o.type ∧ res.order.price = o.price ∧
  res.order.quantity = o.quantity ∧
  res.order.filledQuantity = o.filledQuantity + res.filled ∧
  0 ≤ res.filled ∧
  (remaining = o.quantity - o.filledQuantity → 0 ≤ remaining →
    res.remaining = remaining - res.filled ∧ res.filled ≤ remaining) ∧
  res.queue.Sublist queue ∧
  (∀ id', id' ∉ queue → lookupOrder res.omap id' = lookupOrder m id') ∧
  (∀ t ∈ res.trades, t.price = price ∧
    (o.side = .buy → t.buyOrderId = o.id ∧ t.sellOrderId ∈ queue) ∧
    (o.side = .sell → t.sellOrderId = o.id ∧ t.buyOrderId ∈ queue))

/-- Weakening a level-loop specification along a dropped queue head. -/
theorem LevelSpec_weaken (o : Order) (remaining price : Int) (rid : String)
    (rest : List String) (m : OrdersMap) (res : LevelResult)
    (H : LevelSpec o remaining price rest m res) :
    LevelSpec o remaining price (rid :: rest) m res := by
  obtain ⟨h1, h2, h3, h4, h5, h6, h7, h8, h9, h10, h11, h12⟩ := H
  refine ⟨h1, h2, h3, h4, h5, h6, h7, h8, h9,
    h10.trans (List.sublist_cons_self rid rest), ?_, ?_⟩
  · intro id' hid'
    exact h11 id' (fun hmem => hid' (List.mem_cons_of_mem rid hmem))
  · intro t ht
    obtain ⟨hp, hb, hs⟩ := h12 t ht
    exact ⟨hp, fun h => ⟨(hb h).1, List.mem_cons_of_mem rid (hb h).2⟩,
      fun h => ⟨(hs h).1, List.mem_cons_of_mem rid (hs h).2⟩⟩

theorem matchLevelLimit_spec (o : Order) (remaining price : Int)
    (queue : List String) (m : OrdersMap) :
    LevelSpec o remaining price queue m (matchLevelLimit o remaining price queue m) := by
  induction queue generalizing o remaining m with
  | nil =>
    rw [matchLevelLimit]
    split_ifs <;> simp [LevelSpec]
  | cons rid rest ih =>
    rw [matchLevelLimit]
    by_cases hg : ¬(0 < remaining ∧ o.isFilled = false)
    · rw [if_pos hg]
      simp [LevelSpec]
    · rw [if_neg hg]
      cases hlk : lookupOrder m rid with
      | none =>
        simp only []
        exact LevelSpec_weaken o remaining price rid rest m _ (ih o remaining m)
      | some r =>
        simp only []
        by_cases h1 : r.remainingQuantity ≤ 0
        · rw [if_pos h1]
          exact LevelSpec_weaken o remaining price rid rest m _ (ih o remaining m)
        · rw [if_neg h1]
          set e := (if r.remainingQuantity < remaining then r.remainingQuantity else remaining) with he
          have heLe : e ≤ remaining := by
            rw [he]; split <;> omega
          by_cases h2 : e ≤ 0
          · rw [if_pos h2]
            simp [LevelSpec, List.Sublist.refl]
          · rw [if_neg h2]
            have hmk : ∀ t ∈ [mkTrade o rid price e], t.price = price ∧
                (o.side = .buy → t.buyOrderId = o.id ∧ t.sellOrderId ∈ rid :: rest) ∧
                (o.side = .sell → t.sellOrderId = o.id ∧ t.buyOrderId ∈ rid :: rest) := by
              intro t ht
              rw [List.mem_singleton] at ht
              subst ht
              cases hs : o.side <;> simp [mkTrade, hs]
            have hframe1 : ∀ id', id' ∉ rid :: rest →
                lookupOrder (setOrder m rid (r.fill e)) id' = lookupOrder m id' := by
              intro id' hid'
              exact lookupOrder_setOrder_ne m rid id' (r.fill e)
                (fun h => hid' (h ▸ List.mem_cons_self rid rest))
            by_cases h3 : (o.fill e).quantity - (o.fill e).filledQuantity ≤ 0 ∨ (o.fill e).isFilled = true
            · rw [if_pos h3]
              refine ⟨rfl, rfl, rfl, rfl, rfl, rfl, ?_, ?_, ?_,
                List.Sublist.refl _, hframe1, hmk⟩
              · show (o.fill e).filledQuantity = o.filledQuantity + e
                simp [Order.fill]
              · show (0:Int) ≤ e
                omega
              · intro hrem h0
                refine ⟨?_, heLe⟩
                show (o.fill e).quantity - (o.fill e).filledQuantity = remaining - e
                simp only [Order.fill]
                omega
            · rw [if_neg h3]
              have hframe2 : ∀ id', id' ∉ rid :: rest →
                  lookupOrder (eraseOrder (setOrder m rid (r.fill e)) rid) id'
                    = lookupOrder m id' := by
                intro id' hid'
                rw [lookupOrder_eraseOrder_ne _ rid id'
                  (fun h => hid' (h ▸ List.mem_cons_self rid rest))]
                exact hframe1 id' hid'
              by_cases h4 : (r.fill e).isFilled = true
              · rw [if_pos h4]
                by_cases h5 : rest.isEmpty
                · rw [if_pos h5]
                  refine ⟨rfl, rfl, rfl, rfl, rfl, rfl, ?_, ?_, ?_,
                    List.nil_sublist _, hframe2, hmk⟩
                  · show (o.fill e).filledQuantity = o.filledQuantity + e
                    simp [Order.fill]
                  · show (0:Int) ≤ e
                    omega
                  · intro hrem h0
                    refine ⟨?_, heLe⟩
                    show (o.fill e).quantity - (o.fill e).filledQuantity = remaining - e
                    simp only [Order.fill]
                    omega
                · rw [if_neg h5]
                  set res := matchLevelLimit (o.fill e)
                    ((o.fill e).quantity - (o.fill e).filledQuantity) price rest
                    (eraseOrder (setOrder m rid (r.fill e)) rid) with hres
                  have H := ih (o.fill e)
                    ((o.fill e).quantity - (o.fill e).filledQuantity)
                    (eraseOrder (setOrder m rid (r.fill e)) rid)
                  rw [← hres] at H
                  obtain ⟨H1, H2, H3, H4, H5, H6, H7, H8, H9, H10, H11, H12⟩ := H
                  have hfq : (o.fill e).filledQuantity = o.filledQuantity + e := by
                    simp [Order.fill]
                  have hq : (o.fill e).quantity = o.quantity := by simp [Order.fill]
                  refine ⟨H1, H2, H3, H4, H5, ?_, ?_, ?_, ?_, ?_, ?_, ?_⟩
                  · show res.order.quantity = o.quantity
                    rw [H6, hq]
                  · show res.order.filledQuantity = o.filledQuantity + (e + res.filled)
                    rw [H7, hfq]
                    ring
                  · show (0:Int) ≤ e + res.filled
                    omega
                  · intro hrem h0
                    have hnot3 : 0 < (o.fill e).quantity - (o.fill e).filledQuantity := by
                      push_neg at h3
                      omega
                    have Hacc := H9 rfl (le_of_lt hnot3)
                    have hre : (o.fill e).quantity - (o.fill e).filledQuantity
                        = remaining - e := by
                      simp only [Order.fill]
                      omega
                    rw [hre] at Hacc
                    refine ⟨?_, ?_⟩
                    · show res.remaining = remaining - (e + res.filled)
                      rw [Hacc.1]
                      ring
                    · show e + res.filled ≤ remaining
                      have := Hacc.2
                      omega
                  · show res.queue.Sublist (rid :: rest)
                    exact H10.trans (List.sublist_cons_self rid rest)
                  · intro id' hid'
                    show lookupOrder res.omap id' = lookupOrder m id'
                    rw [H11 id' (fun hmem => hid' (List.mem_cons_of_mem rid hmem))]
                    exact hframe2 id' hid'
                  · intro t ht
                    rcases List.mem_cons.mp ht with rfl | ht
                    · exact hmk _ (List.mem_singleton.mpr rfl)
                    · obtain ⟨hp, hb, hs⟩ := H12 t ht
                      refine ⟨hp, ?_, ?_⟩
                      · intro hside
                        have hside2 : (o.fill e).side = .buy := by
                          simpa [Order.fill] using hside
                        exact ⟨(hb hside2).1, List.mem_cons_of_mem rid (hb hside2).2⟩
                      · intro hside
                        have hside2 : (o.fill e).side = .sell := by
                          simpa [Order.fill] using hside
                        exact ⟨(hs hside2).1, List.mem_cons_of_mem rid (hs hside2).2⟩
              · rw [if_neg h4]
                refine ⟨rfl, rfl, rfl, rfl, rfl, rfl, ?_, ?_, ?_,
                  List.Sublist.refl _, hframe1, hmk⟩
                · show (o.fill e).filledQuantity = o.filledQuantity + e
                  simp [Order.fill]
                · show (0:Int) ≤ e
                  omega
                · intro hrem h0
                  refine ⟨?_, heLe⟩
                  show (o.fill e).quantity - (o.fill e).filledQuantity = remaining - e
                  simp only [Order.fill]
                  omega

/-- All ids stored across a level list's queues. -/
def levelsIds (levels : List PriceLevel) : List String :=
  (levels.map (fun L => L.orders)).join

theorem priceCrosses_congr (a b : Order) (p : Int)
    (hside : a.side = b.side) (hprice : a.price = b.price) :
    priceCrosses a p = priceCrosses b p := by
  unfold priceCrosses
  rw [hside, hprice]

theorem mem_levelsIds_cons (L : PriceLevel) (rest : List PriceLevel) (id : String) :
    id ∈ levelsIds (L :: rest) ↔ id ∈ L.orders ∨ id ∈ levelsIds rest := by
  simp [levelsIds]

/-- Everything the claims need about one run of the limit matcher's
outer walk. -/
def WalkSpec (o : Order) (remaining : Int) (levels : List PriceLevel)
    (m : OrdersMap) (w : WalkResult) : Prop :=
  w.order.id = o.id ∧ w.order.symbol = o.symbol ∧ w.order.side = o.side ∧
  w.order.type = o.type ∧ w.order.price = o.price ∧
  w.order.quantity = o.quantity ∧
  w.order.filledQuantity = o.filledQuantity + w.filled ∧
  0 ≤ w.filled ∧
  (remaining = o.quantity - o.filledQuantity → 0 ≤ remaining →
    w.remaining = remaining - w.filled ∧ w.filled ≤ remaining) ∧
  (∀ id', id' ∈ levelsIds w.levels → id' ∈ levelsIds levels) ∧
  (∀ id', id' ∉ levelsIds levels → lookupOrder w.omap id' = lookupOrder m id') ∧
  (∀ t ∈ w.trades, ∃ L ∈ levels, t.price = L.price ∧
    priceCrosses o L.price = true ∧
    (o.side = .buy → t.buyOrderId = o.id ∧ t.sellOrderId ∈ L.orders) ∧
    (o.side = .sell → t.sellOrderId = o.id ∧ t.buyOrderId ∈ L.orders)) ∧
  (w.levels.map (fun L => L.price)).Sublist (levels.map (fun L => L.price))

theorem matchLimitLevels_spec (o : Order) (remaining : Int)
    (levels : List PriceLevel) (m : OrdersMap) :
    WalkSpec o remaining levels m (matchLimitLevels o remaining levels m) := by
  induction levels generalizing o remaining m with
  | nil =>
    rw [matchLimitLevels]
    split_ifs <;> simp [WalkSpec]
  | cons L rest ih =>
    rw [matchLimitLevels]
    by_cases hg : remaining ≤ 0
    · rw [if_pos hg]
      simp [WalkSpec, List.Sublist.refl]
    · rw [if_neg hg]
      by_cases hemp : L.orders.isEmpty
      · rw [if_pos hemp]
        simp [WalkSpec, List.Sublist.refl]
      · rw [if_neg hemp]
        by_cases hcross : priceCrosses o L.price = false
        · rw [if_pos hcross]
          simp [WalkSpec, List.Sublist.refl]
        · rw [if_neg hcross]
          have hcross2 : priceCrosses o L.price = true := by
            revert hcross
            cases priceCrosses o L.price <;> simp
          set res := matchLevelLimit o remaining L.price L.orders m with hres
          have I := matchLevelLimit_spec o remaining L.price L.orders m
          rw [← hres] at I
          obtain ⟨I1, I2, I3, I4, I5, I6, I7, I8, I9, I10, I11, I12⟩ := I
          have tradesHead : ∀ t ∈ res.trades, ∃ M ∈ L :: rest, t.price = M.price ∧
              priceCrosses o M.price = true ∧
              (o.side = .buy → t.buyOrderId = o.id ∧ t.sellOrderId ∈ M.orders) ∧
              (o.side = .sell → t.sellOrderId = o.id ∧ t.buyOrderId ∈ M.orders) := by
            intro t ht
            obtain ⟨hp, hb, hs⟩ := I12 t ht
            exact ⟨L, List.mem_cons_self L rest, hp, hcross2, hb, hs⟩
          by_cases hdel : res.deleted
          · rw [if_pos hdel]
            by_cases hrm : 0 < res.remaining
            · rw [if_pos hrm]
              set w := matchLimitLevels res.order res.remaining rest res.omap with hw
              have W := ih res.order res.remaining res.omap
              rw [← hw] at W
              obtain ⟨W1, W2, W3, W4, W5, W6, W7, W8, W9, W10, W11, W12, W13⟩ := W
              refine ⟨?_, ?_, ?_, ?_, ?_, ?_, ?_, ?_, ?_, ?_, ?_, ?_, ?_⟩
              · show w.order.id = o.id
                rw [W1, I1]
              · show w.order.symbol = o.symbol
                rw [W2, I2]
              · show w.order.side = o.side
                rw [W3, I3]
              · show w.order.type = o.type
                rw [W4, I4]
              · show w.order.price = o.price
                rw [W5, I5]
              · show w.order.quantity = o.quantity
                rw [W6, I6]
              · show w.order.filledQuantity = o.filledQuantity + (res.filled + w.filled)
                rw [W7, I7]
                ring
              · show (0:Int) ≤ res.filled + w.filled
                omega
              · intro hrem h0
                have Iacc := I9 hrem h0
                have hrem2 : res.remaining = res.order.quantity - res.order.filledQuantity := by
                  rw [I6, I7, Iacc.1, hrem]
                  ring
                have Wacc := W9 hrem2 (le_of_lt hrm)
                refine ⟨?_, ?_⟩
                · show w.remaining = remaining - (res.filled + w.filled)
                  rw [Wacc.1, Iacc.1]
                  ring
                · show res.filled + w.filled ≤ remaining
                  have h1 := Wacc.2
                  have h2 := Iacc.1
                  omega
              · intro id' hid'
                show id' ∈ levelsIds (L :: rest)
                have := W10 id' hid'
                exact (mem_levelsIds_cons L rest id').mpr (Or.inr this)
              · intro id' hid'
                show lookupOrder w.omap id' = lookupOrder m id'
                have hnotL : id' ∉ L.orders :=
                  fun h => hid' ((mem_levelsIds_cons L rest id').mpr (Or.inl h))
                have hnotRest : id' ∉ levelsIds rest :=
                  fun h => hid' ((mem_levelsIds_cons L rest id').mpr (Or.inr h))
                rw [W11 id' hnotRest]
                exact I11 id' hnotL
              · intro t ht
                rcases List.mem_append.mp ht with ht | ht
                · exact tradesHead t ht
                · obtain ⟨M, hM, hp, hc, hb, hs⟩ := W12 t ht
                  refine ⟨M, List.mem_cons_of_mem L hM, hp, ?_, ?_, ?_⟩
                  · rw [← priceCrosses_congr res.order o M.price I3 I5]
                    exact hc
                  · intro hside
                    have hside2 : res.order.side = .buy := by rw [I3, hside]
                    exact ⟨(hb hside2).1.trans I1, (hb hside2).2⟩
                  · intro hside
                    have hside2 : res.order.side = .sell := by rw [I3, hside]
                    exact ⟨(hs hside2).1.trans I1, (hs hside2).2⟩
              · show (w.levels.map (fun M => M.price)).Sublist ((L :: rest).map (fun M => M.price))
                simp only [List.map_cons]
                exact W13.trans (List.sublist_cons_self L.price (rest.map (fun M => M.price)))
            · rw [if_neg hrm]
              refine ⟨I1, I2, I3, I4, I5, I6, I7, I8, I9, ?_, ?_, tradesHead, ?_⟩
              · intro id' hid'
                show id' ∈ levelsIds (L :: rest)
                exact (mem_levelsIds_cons L rest id').mpr (Or.inr hid')
              · intro id' hid'
                show lookupOrder res.omap id' = lookupOrder m id'
                exact I11 id'
                  (fun h => hid' ((mem_levelsIds_cons L rest id').mpr (Or.inl h)))
              · show (rest.map (fun M => M.price)).Sublist ((L :: rest).map (fun M => M.price))
                simp only [List.map_cons]
                exact List.sublist_cons_self L.price (rest.map (fun M => M.price))
          · rw [if_neg hdel]
            refine ⟨I1, I2, I3, I4, I5, I6, I7, I8, I9, ?_, ?_, tradesHead, ?_⟩
            · intro id' hid'
              show id' ∈ levelsIds (L :: rest)
              rcases (mem_levelsIds_cons ⟨L.price, res.queue⟩ rest id').mp hid' with h | h
              · exact (mem_levelsIds_cons L rest id').mpr
                  (Or.inl (I10.subset h))
              · exact (mem_levelsIds_cons L rest id').mpr (Or.inr h)
            · intro id' hid'
              show lookupOrder res.omap id' = lookupOrder m id'
              exact I11 id'
                (fun h => hid' ((mem_levelsIds_cons L rest id').mpr (Or.inl h)))
            · show ((⟨L.price, res.queue⟩ :: rest : List PriceLevel).map
                  (fun M => M.price)).Sublist ((L :: rest).map (fun M => M.price))
              simp only [List.map_cons]
              exact List.Sublist.refl _

/-- An order id reachable through some index of a book: the id-map or a
price-level queue of either side. -/
def idInBook (ob : OrderBook) (id : String) : Prop :=
  lookupOrder ob.orders id ≠ none ∨ id ∈ levelsIds ob.bids ∨ id ∈ levelsIds ob.asks

theorem pairwise_price_of_sublist (R : Int → Int → Prop) (l1 l2 : List PriceLevel)
    (hsub : (l1.map (fun L => L.price)).Sublist (l2.map (fun L => L.price)))
    (h : List.Pairwise (fun a b => R a.price b.price) l2) :
    List.Pairwise (fun a b => R a.price b.price) l1 := by
  have h2 : List.Pairwise R (l2.map (fun L => L.price)) := (List.pairwise_map).mpr h
  exact (List.pairwise_map).mp (List.Pairwise.sublist hsub h2)

/-- C1: after the matching walk of a limit submission (fresh id, fill
counter 0, positive quantity, sorted book sides), exactly one of three
cases holds, decided by the filled quantity: zero → `Accepted` and the
order is appended at the tail of its own side's price level; strictly
between zero and the quantity → `PartialFill` and likewise appended;
equal to the quantity → `Filled` and the order is reachable through no
book index. -/
theorem matchLimitOrder_trichotomy (ob : OrderBook) (o : Order)
    (hf : o.filledQuantity = 0) (hq : 0 < o.quantity)
    (hfresh : ¬ idInBook ob o.id)
    (hb : List.Pairwise (fun a b => b.price < a.price) ob.bids)
    (ha : List.Pairwise (fun a b => a.price < b.price) ob.asks) :
    (0 ≤ (matchLimitOrder ob o).1.filledQuantity ∧
      (matchLimitOrder ob o).1.filledQuantity ≤ o.quantity) ∧
    ((matchLimitOrder ob o).1.filledQuantity = 0 →
      (matchLimitOrder ob o).1.status = .accepted ∧
      ∃ q, queueAt (sideLevels (matchLimitOrder ob o).2 o.side) o.price
        = q ++ [o.id]) ∧
    (0 < (matchLimitOrder ob o).1.filledQuantity →
      (matchLimitOrder ob o).1.filledQuantity < o.quantity →
      (matchLimitOrder ob o).1.status = .partialFill ∧
      ∃ q, queueAt (sideLevels (matchLimitOrder ob o).2 o.side) o.price
        = q ++ [o.id]) ∧
    ((matchLimitOrder ob o).1.filledQuantity = o.quantity →
      (matchLimitOrder ob o).1.status = .filled ∧
      ¬ idInBook (matchLimitOrder ob o).2 o.id) := by
  have hfresh2 : lookupOrder ob.orders o.id = none ∧
      o.id ∉ levelsIds ob.bids ∧ o.id ∉ levelsIds ob.asks := by
    unfold idInBook at hfresh
    push_neg at hfresh
    exact hfresh
  simp only [matchLimitOrder]
  set w := matchLimitLevels o o.quantity (opposing ob o.side) ob.orders with hw
  have W := matchLimitLevels_spec o o.quantity (opposing ob o.side) ob.orders
  rw [← hw] at W
  obtain ⟨W1, W2, W3, W4, W5, W6, W7, W8, W9, W10, W11, W12, W13⟩ := W
  have Wacc := W9 (by omega) (by omega)
  set ob1 := withOpposing ob o.side w.levels w.omap with hob1
  have hopp : o.id ∉ levelsIds (opposing ob o.side) := by
    cases hside : o.side
    · simpa [opposing, hside] using hfresh2.2.2
    · simpa [opposing, hside] using hfresh2.2.1
  have hmapNone : lookupOrder w.omap o.id = none := by
    rw [W11 o.id hopp]
    exact hfresh2.1
  have hb1 : List.Pairwise (fun a b => b.price < a.price) ob1.bids := by
    cases hside : o.side
    · simpa [hob1, withOpposing, hside] using hb
    · have : ob1.bids = w.levels := by simp [hob1, withOpposing, hside]
      rw [this]
      refine pairwise_price_of_sublist (fun x y => y < x) w.levels ob.bids ?_ hb
      simpa [opposing, hside] using W13
  have ha1 : List.Pairwise (fun a b => a.price < b.price) ob1.asks := by
    cases hside : o.side
    · have : ob1.asks = w.levels := by simp [hob1, withOpposing, hside]
      rw [this]
      refine pairwise_price_of_sublist (fun x y => x < y) w.levels ob.asks ?_ ha
      simpa [opposing, hside] using W13
    · simpa [hob1, withOpposing, hside] using ha
  have hins := addOrder_appends_tail ob1 w.order hb1 ha1
  rw [W1, W3, W5] at hins
  have hnotin : ¬ idInBook ob1 o.id := by
    unfold idInBook
    push_neg
    refine ⟨?_, ?_, ?_⟩
    · cases hside : o.side
      · have : ob1.orders = w.omap := by simp [hob1, withOpposing, hside]
        rw [this]
        exact hmapNone
      · have : ob1.orders = w.omap := by simp [hob1, withOpposing, hside]
        rw [this]
        exact hmapNone
    · cases hside : o.side
      · have : ob1.bids = ob.bids := by simp [hob1, withOpposing, hside]
        rw [this]
        exact hfresh2.2.1
      · have : ob1.bids = w.levels := by simp [hob1, withOpposing, hside]
        rw [this]
        intro hcon
        exact hopp (by simpa [opposing, hside] using W10 o.id hcon)
    · cases hside : o.side
      · have : ob1.asks = w.levels := by simp [hob1, withOpposing, hside]
        rw [this]
        intro hcon
        exact hopp (by simpa [opposing, hside] using W10 o.id hcon)
      · have : ob1.asks = ob.asks := by simp [hob1, withOpposing, hside]
        rw [this]
        exact hfresh2.2.2
  have hWacc1 := Wacc.1
  have hWacc2 := Wacc.2
  by_cases hc1 : w.filled = 0
  · rw [if_pos hc1]
    refine ⟨⟨show (0:Int) ≤ w.filled by omega,
        show w.filled ≤ o.quantity by omega⟩, ?_, ?_, ?_⟩
    · intro _
      exact ⟨rfl, ⟨_, hins.2⟩⟩
    · intro h1 _
      have h1' : 0 < w.filled := h1
      exact absurd h1' (by omega)
    · intro h1
      have h1' : w.filled = o.quantity := h1
      exact absurd h1' (by omega)
  · rw [if_neg hc1]
    by_cases hc2 : 0 < w.remaining
    · rw [if_pos hc2]
      refine ⟨⟨show (0:Int) ≤ w.filled by omega,
          show w.filled ≤ o.quantity by omega⟩, ?_, ?_, ?_⟩
      · intro h1
        have h1' : w.filled = 0 := h1
        exact absurd h1' hc1
      · intro _ _
        exact ⟨rfl, ⟨_, hins.2⟩⟩
      · intro h1
        have h1' : w.filled = o.quantity := h1
        exact absurd h1' (by omega)
    · rw [if_neg hc2]
      refine ⟨⟨show (0:Int) ≤ w.filled by omega,
          show w.filled ≤ o.quantity by omega⟩, ?_, ?_, ?_⟩
      · intro h1
        have h1' : w.filled = 0 := h1
        exact absurd h1' hc1
      · intro h1 h2
        have h2' : w.filled < o.quantity := h2
        exact absurd h2' (by omega)
      · intro _
        exact ⟨rfl, hnotin⟩

/-- Witness for C1 at a concrete input: a fresh limit buy of 40 at
15050 against the one-ask book (resting ask of 100 at the same price). -/
theorem matchLimitOrder_trichotomy_witness :
    (0 ≤ (matchLimitOrder oneAskBook (mkBuyLimit "B2" 15050 40)).1.filledQuantity ∧
      (matchLimitOrder oneAskBook (mkBuyLimit "B2" 15050 40)).1.filledQuantity
        ≤ (mkBuyLimit "B2" 15050 40).quantity) ∧
    ((matchLimitOrder oneAskBook (mkBuyLimit "B2" 15050 40)).1.filledQuantity = 0 →
      (matchLimitOrder oneAskBook (mkBuyLimit "B2" 15050 40)).1.status = .accepted ∧
      ∃ q, queueAt (sideLevels (matchLimitOrder oneAskBook (mkBuyLimit "B2" 15050 40)).2
        (mkBuyLimit "B2" 15050 40).side) (mkBuyLimit "B2" 15050 40).price
        = q ++ [(mkBuyLimit "B2" 15050 40).id]) ∧
    (0 < (matchLimitOrder oneAskBook (mkBuyLimit "B2" 15050 40)).1.filledQuantity →
      (matchLimitOrder oneAskBook (mkBuyLimit "B2" 15050 40)).1.filledQuantity
        < (mkBuyLimit "B2" 15050 40).quantity →
      (matchLimitOrder oneAskBook (mkBuyLimit "B2" 15050 40)).1.status = .partialFill ∧
      ∃ q, queueAt (sideLevels (matchLimitOrder oneAskBook (mkBuyLimit "B2" 15050 40)).2
        (mkBuyLimit "B2" 15050 40).side) (mkBuyLimit "B2" 15050 40).price
        = q ++ [(mkBuyLimit "B2" 15050 40).id]) ∧
    ((matchLimitOrder oneAskBook (mkBuyLimit "B2" 15050 40)).1.filledQuantity
        = (mkBuyLimit "B2" 15050 40).quantity →
      (matchLimitOrder oneAskBook (mkBuyLimit "B2" 15050 40)).1.status = .filled ∧
      ¬ idInBook (matchLimitOrder oneAskBook (mkBuyLimit "B2" 15050 40)).2
        (mkBuyLimit "B2" 15050 40).id) :=
  matchLimitOrder_trichotomy oneAskBook (mkBuyLimit "B2" 15050 40)
    (by decide) (by decide)
    (by unfold idInBook levelsIds; decide)
    (by decide) (by decide)

/-- What C4 needs from one run of the market matcher's inner loop. -/
def MarketLevelSpec (o : Order) (price : Int) (queue : List String)
    (res : LevelResult) : Prop :=
  res.order.id = o.id ∧ res.order.side = o.side ∧
  (∀ t ∈ res.trades, t.price = price ∧
    (o.side = .buy → t.buyOrderId = o.id ∧ t.sellOrderId ∈ queue) ∧
    (o.side = .sell → t.sellOrderId = o.id ∧ t.buyOrderId ∈ queue))

theorem MarketLevelSpec_weaken (o : Order) (price : Int) (rid : String)
    (rest queue : List String) (res : LevelResult)
    (hsub : ∀ id, id ∈ rest → id ∈ queue)
    (H : MarketLevelSpec o price rest res) :
    MarketLevelSpec o price queue res := by
  obtain ⟨h1, h2, h3⟩ := H
  refine ⟨h1, h2, ?_⟩
  intro t ht
  obtain ⟨hp, hb, hs⟩ := h3 t ht
  exact ⟨hp, fun h => ⟨(hb h).1, hsub _ (hb h).2⟩,
    fun h => ⟨(hs h).1, hsub _ (hs h).2⟩⟩

set_option maxHeartbeats 1600000 in
theorem matchLevelMarket_spec_aux (n : Nat) :
    ∀ (o : Order) (remaining price : Int) (queue : List String) (m : OrdersMap),
      queue.length ≤ n →
      MarketLevelSpec o price queue (matchLevelMarket o remaining price queue m) := by
  induction n with
  | zero =>
    intro o remaining price queue m hl
    have hq : queue = [] := List.length_eq_zero.mp (Nat.le_zero.mp hl)
    subst hq
    rw [matchLevelMarket]
    split_ifs <;> simp [MarketLevelSpec]
  | succ n ih =>
    intro o remaining price queue m hl
    cases queue with
    | nil =>
      rw [matchLevelMarket]
      split_ifs <;> simp [MarketLevelSpec]
    | cons rid rest =>
      rw [matchLevelMarket]
      by_cases hg : remaining ≤ 0
      · rw [if_pos hg]
        simp [MarketLevelSpec]
      · rw [if_neg hg]
        simp only [List.length_cons] at hl
        cases hlk : lookupOrder m rid with
        | none =>
          simp only []
          exact MarketLevelSpec_weaken o price rid rest (rid :: rest) _
            (fun id h => List.mem_cons_of_mem rid h)
            (ih o remaining price rest m (by omega))
        | some r =>
          simp only []
          by_cases h1 : r.remainingQuantity ≤ 0
          · rw [if_pos h1]
            exact MarketLevelSpec_weaken o price rid rest (rid :: rest) _
              (fun id h => List.mem_cons_of_mem rid h)
              (ih o remaining price rest m (by omega))
          · rw [if_neg h1]
            set e := (if r.remainingQuantity < remaining then r.remainingQuantity else remaining) with he
            have hmk : ∀ t ∈ [mkTrade o rid price e], t.price = price ∧
                (o.side = .buy → t.buyOrderId = o.id ∧ t.sellOrderId ∈ rid :: rest) ∧
                (o.side = .sell → t.sellOrderId = o.id ∧ t.buyOrderId ∈ rid :: rest) := by
              intro t ht
              rw [List.mem_singleton] at ht
              subst ht
              cases hs : o.side <;> simp [mkTrade, hs]
            by_cases h4 : (r.fill e).isFilled = true
            · rw [if_pos h4]
              cases rest with
              | nil => exact ⟨rfl, rfl, hmk⟩
              | cons x rest2 =>
                cases rest2 with
                | nil =>
                  dsimp only
                  by_cases h5 : remaining - e ≤ 0
                  · rw [if_pos h5]
                    exact ⟨rfl, rfl, hmk⟩
                  · rw [if_neg h5]
                    exact ⟨rfl, rfl, hmk⟩
                | cons y q2 =>
                  dsimp only
                  by_cases h5 : remaining - e ≤ 0
                  · rw [if_pos h5]
                    exact ⟨rfl, rfl, hmk⟩
                  · rw [if_neg h5]
                    have H := ih (o.fill e) (remaining - e) price (y :: q2)
                      (eraseOrder (setOrder m rid (r.fill e)) rid) (by simp at hl ⊢; omega)
                    obtain ⟨H1, H2, H3⟩ := H
                    refine ⟨H1, H2, ?_⟩
                    intro t ht
                    rcases List.mem_cons.mp ht with rfl | ht
                    · exact hmk _ (List.mem_singleton.mpr rfl)
                    · obtain ⟨hp, hb, hs⟩ := H3 t ht
                      refine ⟨hp, ?_, ?_⟩
                      · intro hside
                        have hside2 : (o.fill e).side = .buy := by
                          simpa [Order.fill] using hside
                        refine ⟨(hb hside2).1, ?_⟩
                        have := (hb hside2).2
                        simp only [List.mem_cons] at this ⊢
                        tauto
                      · intro hside
                        have hside2 : (o.fill e).side = .sell := by
                          simpa [Order.fill] using hside
                        refine ⟨(hs hside2).1, ?_⟩
                        have := (hs hside2).2
                        simp only [List.mem_cons] at this ⊢
                        tauto
            · rw [if_neg h4]
              exact ⟨rfl, rfl, hmk⟩

theorem matchLevelMarket_spec (o : Order) (remaining price : Int)
    (queue : List String) (m : OrdersMap) :
    MarketLevelSpec o price queue (matchLevelMarket o remaining price queue m) :=
  matchLevelMarket_spec_aux queue.length o remaining price queue m (Nat.le_refl _)

/-- What C4 needs from the market matcher's outer walk. -/
def MarketWalkSpec (o : Order) (levels : List PriceLevel) (w : WalkResult) : Prop :=
  w.order.id = o.id ∧ w.order.side = o.side ∧
  (∀ t ∈ w.trades, ∃ L ∈ levels, t.price = L.price ∧
    (o.side = .buy → t.buyOrderId = o.id ∧ t.sellOrderId ∈ L.orders) ∧
    (o.side = .sell → t.sellOrderId = o.id ∧ t.buyOrderId ∈ L.orders))

theorem matchMarketLevels_spec (o : Order) (remaining : Int)
    (levels : List PriceLevel) (m : OrdersMap) :
    MarketWalkSpec o levels (matchMarketLevels o remaining levels m) := by
  induction levels generalizing o remaining m with
  | nil =>
    rw [matchMarketLevels]
    split_ifs <;> simp [MarketWalkSpec]
  | cons L rest ih =>
    rw [matchMarketLevels]
    by_cases hg : remaining ≤ 0
    · rw [if_pos hg]
      simp [MarketWalkSpec]
    · rw [if_neg hg]
      by_cases hemp : L.orders.isEmpty
      · rw [if_pos hemp]
        simp [MarketWalkSpec]
      · rw [if_neg hemp]
        set res := matchLevelMarket o remaining L.price L.orders m with hres
        have I := matchLevelMarket_spec o remaining L.price L.orders m
        rw [← hres] at I
        obtain ⟨I1, I2, I3⟩ := I
        have tradesHead : ∀ t ∈ res.trades, ∃ M ∈ L :: rest, t.price = M.price ∧
            (o.side = .buy → t.buyOrderId = o.id ∧ t.sellOrderId ∈ M.orders) ∧
            (o.side = .sell → t.sellOrderId = o.id ∧ t.buyOrderId ∈ M.orders) := by
          intro t ht
          obtain ⟨hp, hb, hs⟩ := I3 t ht
          exact ⟨L, List.mem_cons_self L rest, hp, hb, hs⟩
        by_cases hdel : res.deleted
        · rw [if_pos hdel]
          by_cases hrm : 0 < res.remaining
          · rw [if_pos hrm]
            set w := matchMarketLevels res.order res.remaining rest res.omap with hw
            have W := ih res.order res.remaining res.omap
            rw [← hw] at W
            obtain ⟨W1, W2, W3⟩ := W
            refine ⟨?_, ?_, ?_⟩
            · show w.order.id = o.id
              rw [W1, I1]
            · show w.order.side = o.side
              rw [W2, I2]
            · intro t ht
              rcases List.mem_append.mp ht with ht | ht
              · exact tradesHead t ht
              · obtain ⟨M, hM, hp, hb, hs⟩ := W3 t ht
                refine ⟨M, List.mem_cons_of_mem L hM, hp, ?_, ?_⟩
                · intro hside
                  have hside2 : res.order.side = .buy := by rw [I2, hside]
                  exact ⟨(hb hside2).1.trans I1, (hb hside2).2⟩
                · intro hside
                  have hside2 : res.order.side = .sell := by rw [I2, hside]
                  exact ⟨(hs hside2).1.trans I1, (hs hside2).2⟩
          · rw [if_neg hrm]
            exact ⟨I1, I2, tradesHead⟩
        · rw [if_neg hdel]
          exact ⟨I1, I2, tradesHead⟩

theorem matchLimitOrder_trades (ob : OrderBook) (o : Order) :
    (matchLimitOrder ob o).1.trades
      = (matchLimitLevels o o.quantity (opposing ob o.side) ob.orders).trades := by
  simp only [matchLimitOrder]
  split_ifs <;> rfl

/-- C4: every trade of a submit (limit or market) prints at the resting
order's stored price — the passive order found in the pre-call id-map
carries exactly the trade price — and when the incoming order is a limit
order its limit bounds the print from its own side (a market taker has
no such bound).  The hypotheses are the book invariant tying each queued
id to a map entry at the level's price. -/
theorem matchOrder_trade_prices (ob : OrderBook) (o : Order)
    (hA : ∀ L ∈ ob.asks, ∀ id ∈ L.orders,
      ∃ r, lookupOrder ob.orders id = some r ∧ r.price = L.price)
    (hB : ∀ L ∈ ob.bids, ∀ id ∈ L.orders,
      ∃ r, lookupOrder ob.orders id = some r ∧ r.price = L.price) :
    ∀ res, (matchOrder ob o).1 = .ok res → ∀ t ∈ res.trades,
      (o.side = .buy → t.buyOrderId = o.id ∧
        ∃ r, lookupOrder ob.orders t.sellOrderId = some r ∧ r.price = t.price) ∧
      (o.side = .sell → t.sellOrderId = o.id ∧
        ∃ r, lookupOrder ob.orders t.buyOrderId = some r ∧ r.price = t.price) ∧
      (o.type = .limit →
        (o.side = .buy → t.price ≤ o.price) ∧
        (o.side = .sell → o.price ≤ t.price)) := by
  intro res hres t ht
  cases htype : o.type with
  | limit =>
    have hres2 : res = (matchLimitOrder ob o).1 := by
      simp only [matchOrder, htype] at hres
      exact (Except.ok.inj hres).symm
    subst hres2
    rw [matchLimitOrder_trades] at ht
    have W := matchLimitLevels_spec o o.quantity (opposing ob o.side) ob.orders
    obtain ⟨W1, W2, W3, W4, W5, W6, W7, W8, W9, W10, W11, W12, W13⟩ := W
    obtain ⟨L, hL, hp, hcross, hbuy, hsell⟩ := W12 t ht
    refine ⟨?_, ?_, ?_⟩
    · intro hside
      refine ⟨(hbuy hside).1, ?_⟩
      have hLasks : L ∈ ob.asks := by simpa [opposing, hside] using hL
      obtain ⟨r, hr, hrp⟩ := hA L hLasks t.sellOrderId (hbuy hside).2
      exact ⟨r, hr, by rw [hrp, hp]⟩
    · intro hside
      refine ⟨(hsell hside).1, ?_⟩
      have hLbids : L ∈ ob.bids := by simpa [opposing, hside] using hL
      obtain ⟨r, hr, hrp⟩ := hB L hLbids t.buyOrderId (hsell hside).2
      exact ⟨r, hr, by rw [hrp, hp]⟩
    · intro _
      constructor
      · intro hside
        have hc := hcross
        unfold priceCrosses at hc
        rw [hside] at hc
        rw [hp]
        simpa using hc
      · intro hside
        have hc := hcross
        unfold priceCrosses at hc
        rw [hside] at hc
        rw [hp]
        simpa using hc
  | market =>
    simp only [matchOrder, htype, matchMarketOrder] at hres
    by_cases hliq : sideAvailable ob.orders (opposing ob o.side) < o.quantity
    · rw [if_pos hliq] at hres
      cases hres
    · rw [if_neg hliq] at hres
      have hres2 := (Except.ok.inj hres).symm
      subst hres2
      have W := matchMarketLevels_spec o o.quantity (opposing ob o.side) ob.orders
      obtain ⟨W1, W2, W3⟩ := W
      obtain ⟨L, hL, hp, hbuy, hsell⟩ := W3 t ht
      refine ⟨?_, ?_, ?_⟩
      · intro hside
        refine ⟨(hbuy hside).1, ?_⟩
        have hLasks : L ∈ ob.asks := by simpa [opposing, hside] using hL
        obtain ⟨r, hr, hrp⟩ := hA L hLasks t.sellOrderId (hbuy hside).2
        exact ⟨r, hr, by rw [hrp, hp]⟩
      · intro hside
        refine ⟨(hsell hside).1, ?_⟩
        have hLbids : L ∈ ob.bids := by simpa [opposing, hside] using hL
        obtain ⟨r, hr, hrp⟩ := hB L hLbids t.buyOrderId (hsell hside).2
        exact ⟨r, hr, by rw [hrp, hp]⟩
      · intro hbad
        exact absurd hbad (by decide)

/-- Witness for C4: the limit buy of 30 at 15050 against the one-ask
book trades once at 15050 with the resting sell `"S"`. -/
theorem matchOrder_trade_prices_witness :
    ((mkBuyLimit "B9" 15050 30).side = .buy →
      (Trade.mk 15050 30 "B9" "S").buyOrderId = (mkBuyLimit "B9" 15050 30).id ∧
      ∃ r, lookupOrder oneAskBook.orders (Trade.mk 15050 30 "B9" "S").sellOrderId
          = some r ∧ r.price = (Trade.mk 15050 30 "B9" "S").price) ∧
    ((mkBuyLimit "B9" 15050 30).side = .sell →
      (Trade.mk 15050 30 "B9" "S").sellOrderId = (mkBuyLimit "B9" 15050 30).id ∧
      ∃ r, lookupOrder oneAskBook.orders (Trade.mk 15050 30 "B9" "S").buyOrderId
          = some r ∧ r.price = (Trade.mk 15050 30 "B9" "S").price) ∧
    ((mkBuyLimit "B9" 15050 30).type = .limit →
      ((mkBuyLimit "B9" 15050 30).side = .buy →
        (Trade.mk 15050 30 "B9" "S").price ≤ (mkBuyLimit "B9" 15050 30).price) ∧
      ((mkBuyLimit "B9" 15050 30).side = .sell →
        (mkBuyLimit "B9" 15050 30).price ≤ (Trade.mk 15050 30 "B9" "S").price)) :=
  matchOrder_trade_prices oneAskBook (mkBuyLimit "B9" 15050 30)
    (by
      intro L hL oid hoid
      rw [show oneAskBook.asks = [⟨15050, ["S"]⟩] from rfl] at hL
      rw [List.mem_singleton] at hL
      subst hL
      rw [show (PriceLevel.mk 15050 ["S"]).orders = ["S"] from rfl,
        List.mem_singleton] at hoid
      subst hoid
      exact ⟨mkSellLimit "S" 15050 100, by decide, by decide⟩)
    (by
      intro L hL
      rw [show oneAskBook.bids = [] from rfl] at hL
      cases hL)
    { status := .filled, filledQuantity := 30, remainingQuantity := 0,
      trades := [Trade.mk 15050 30 "B9" "S"] }
    (by decide)
    (Trade.mk 15050 30 "B9" "S")
    (by decide)

/-- Keys of the id-map. -/
def mapKeys (m : OrdersMap) : List String :=
  m.map (fun p => p.1)

theorem mem_setOrder_keys (m : OrdersMap) (id : String) (o : Order) (k : String) :
    k ∈ mapKeys (setOrder m id o) ↔ k ∈ mapKeys m ∨ k = id := by
  induction m with
  | nil => simp [setOrder, mapKeys]
  | cons p rest ih =>
    by_cases hp : p.1 = id
    · simp [setOrder, if_pos hp, mapKeys, hp]
      tauto
    · simp only [setOrder, if_neg hp, mapKeys, List.map_cons, List.mem_cons] at ih ⊢
      rw [ih]
      tauto

theorem mem_eraseOrder_keys (m : OrdersMap) (id : String) (k : String)
    (h : k ∈ mapKeys (eraseOrder m id)) : k ∈ mapKeys m := by
  induction m with
  | nil => simpa [eraseOrder, mapKeys] using h
  | cons p rest ih =>
    by_cases hp : p.1 = id
    · simp only [eraseOrder, if_pos hp] at h
      show k ∈ mapKeys (p :: rest)
      simp only [mapKeys, List.map_cons, List.mem_cons]
      exact Or.inr h
    · simp only [eraseOrder, if_neg hp, mapKeys, List.map_cons, List.mem_cons] at h ⊢
      rcases h with h | h
      · exact Or.inl h
      · exact Or.inr (ih h)

theorem setOrder_keys_nodup (m : OrdersMap) (id : String) (o : Order)
    (h : (mapKeys m).Nodup) : (mapKeys (setOrder m id o)).Nodup := by
  induction m with
  | nil => simp [setOrder, mapKeys]
  | cons p rest ih =>
    simp only [mapKeys, List.map_cons, List.nodup_cons] at h
    by_cases hp : p.1 = id
    · simp only [setOrder, if_pos hp, mapKeys, List.map_cons, List.nodup_cons]
      exact ⟨by rw [← hp]; exact h.1, h.2⟩
    · simp only [setOrder, if_neg hp, mapKeys, List.map_cons, List.nodup_cons]
      refine ⟨?_, ih h.2⟩
      intro hmem
      rcases (mem_setOrder_keys rest id o p.1).mp hmem with hmem | hmem
      · exact h.1 hmem
      · exact hp hmem

theorem eraseOrder_keys_nodup (m : OrdersMap) (id : String)
    (h : (mapKeys m).Nodup) : (mapKeys (eraseOrder m id)).Nodup := by
  induction m with
  | nil => simp [eraseOrder, mapKeys]
  | cons p rest ih =>
    simp only [mapKeys, List.map_cons, List.nodup_cons] at h
    by_cases hp : p.1 = id
    · simp only [eraseOrder, if_pos hp]
      exact h.2
    · simp only [eraseOrder, if_neg hp, mapKeys, List.map_cons, List.nodup_cons]
      exact ⟨fun hmem => h.1 (mem_eraseOrder_keys rest id p.1 hmem), ih h.2⟩

theorem lookupOrder_eq_none_of_not_mem_keys (m : OrdersMap) (id : String)
    (h : id ∉ mapKeys m) : lookupOrder m id = none := by
  induction m with
  | nil => rfl
  | cons p rest ih =>
    simp only [mapKeys, List.map_cons, List.mem_cons] at h
    push_neg at h
    unfold lookupOrder
    rw [List.find?_cons, decide_eq_false (Ne.symm h.1)]
    have hr := ih (by simpa [mapKeys] using h.2)
    unfold lookupOrder at hr
    exact hr

theorem lookupOrder_eraseOrder_self (m : OrdersMap) (id : String)
    (h : (mapKeys m).Nodup) : lookupOrder (eraseOrder m id) id = none := by
  induction m with
  | nil => rfl
  | cons p rest ih =>
    simp only [mapKeys, List.map_cons, List.nodup_cons] at h
    by_cases hp : p.1 = id
    · simp only [eraseOrder, if_pos hp]
      apply lookupOrder_eq_none_of_not_mem_keys
      rw [← hp]
      exact h.1
    · simp only [eraseOrder, if_neg hp]
      unfold lookupOrder
      rw [List.find?_cons, decide_eq_false hp]
      have hr := ih h.2
      unfold lookupOrder at hr
      exact hr

theorem matchLevelLimit_keys_nodup (o : Order) (remaining price : Int)
    (queue : List String) (m : OrdersMap) (h : (mapKeys m).Nodup) :
    (mapKeys (matchLevelLimit o remaining price queue m).omap).Nodup := by
  induction queue generalizing o remaining m with
  | nil =>
    rw [matchLevelLimit]
    split_ifs <;> exact h
  | cons rid rest ih =>
    rw [matchLevelLimit]
    by_cases hg : ¬(0 < remaining ∧ o.isFilled = false)
    · rw [if_pos hg]
      exact h
    · rw [if_neg hg]
      cases hlk : lookupOrder m rid with
      | none => exact ih o remaining m h
      | some r =>
        simp only []
        by_cases h1 : r.remainingQuantity ≤ 0
        · rw [if_pos h1]
          exact ih o remaining m h
        · rw [if_neg h1]
          set e := (if r.remainingQuantity < remaining then r.remainingQuantity else remaining) with he
          by_cases h2 : e ≤ 0
          · rw [if_pos h2]
            exact h
          · rw [if_neg h2]
            have hset := setOrder_keys_nodup m rid (r.fill e) h
            have herase := eraseOrder_keys_nodup (setOrder m rid (r.fill e)) rid hset
            by_cases h3 : (o.fill e).quantity - (o.fill e).filledQuantity ≤ 0 ∨ (o.fill e).isFilled = true
            · rw [if_pos h3]
              exact hset
            · rw [if_neg h3]
              by_cases h4 : (r.fill e).isFilled = true
              · rw [if_pos h4]
                by_cases h5 : rest.isEmpty
                · rw [if_pos h5]
                  exact herase
                · rw [if_neg h5]
                  exact ih (o.fill e) _ _ herase
              · rw [if_neg h4]
                exact hset

/-- An id is fully consumed as observed through an id-map: every entry
still present has no remaining quantity. -/
def fullyConsumed (m : OrdersMap) (id : String) : Prop :=
  ∀ ra, lookupOrder m id = some ra → ra.remainingQuantity ≤ 0

theorem matchLevelLimit_frame (o : Order) (remaining price : Int)
    (queue : List String) (m : OrdersMap) (id : String) (h : id ∉ queue) :
    lookupOrder (matchLevelLimit o remaining price queue m).omap id
      = lookupOrder m id := by
  have H := matchLevelLimit_spec o remaining price queue m
  exact H.2.2.2.2.2.2.2.2.2.2.1 id h

/-- FIFO consumption inside one level of the limit walk: if an order
`b` queued behind `a` had its map entry touched, then `a` ends fully
consumed. -/
theorem matchLevelLimit_fifo (price : Int) (queue : List String) :
    ∀ (o : Order) (remaining : Int) (m : OrdersMap)
      (xs ys zs : List String) (a b : String),
      queue = xs ++ a :: (ys ++ b :: zs) → queue.Nodup → (mapKeys m).Nodup →
      lookupOrder (matchLevelLimit o remaining price queue m).omap b
        ≠ lookupOrder m b →
      fullyConsumed (matchLevelLimit o remaining price queue m).omap a := by
  induction queue with
  | nil =>
    intro o remaining m xs ys zs a b hsplit
    exact absurd hsplit (by simp)
  | cons rid rest ih =>
    intro o remaining m xs ys zs a b hsplit hnd hmk hbch
    have hridrest : rid ∉ rest := (List.nodup_cons.mp hnd).1
    have hndrest : rest.Nodup := (List.nodup_cons.mp hnd).2
    have hbin : b ∈ rest := by
      cases xs with
      | nil =>
        simp only [List.nil_append, List.cons.injEq] at hsplit
        rw [hsplit.2]
        simp
      | cons x xs2 =>
        simp only [List.cons_append, List.cons.injEq] at hsplit
        rw [hsplit.2]
        simp
    have hbne : b ≠ rid := fun h => hridrest (h ▸ hbin)
    by_cases hg : ¬(0 < remaining ∧ o.isFilled = false)
    · have homap : (matchLevelLimit o remaining price (rid :: rest) m).omap = m := by
        rw [matchLevelLimit, if_pos hg]
      rw [homap] at hbch
      exact absurd rfl hbch
    · cases hlk : lookupOrder m rid with
      | none =>
        have homap : (matchLevelLimit o remaining price (rid :: rest) m).omap
            = (matchLevelLimit o remaining price rest m).omap := by
          rw [matchLevelLimit, if_neg hg]
          simp only [hlk]
        rw [homap] at hbch ⊢
        cases xs with
        | nil =>
          simp only [List.nil_append, List.cons.injEq] at hsplit
          intro ra hra
          rw [← hsplit.1] at hra
          rw [matchLevelLimit_frame o remaining price rest m rid hridrest, hlk] at hra
          cases hra
        | cons x xs2 =>
          simp only [List.cons_append, List.cons.injEq] at hsplit
          exact ih o remaining m xs2 ys zs a b hsplit.2 hndrest hmk hbch
      | some r =>
        by_cases h1 : r.remainingQuantity ≤ 0
        · have homap : (matchLevelLimit o remaining price (rid :: rest) m).omap
              = (matchLevelLimit o remaining price rest m).omap := by
            rw [matchLevelLimit, if_neg hg]
            simp only [hlk]
            rw [if_pos h1]
          rw [homap] at hbch ⊢
          cases xs with
          | nil =>
            simp only [List.nil_append, List.cons.injEq] at hsplit
            intro ra hra
            rw [← hsplit.1] at hra
            rw [matchLevelLimit_frame o remaining price rest m rid hridrest, hlk] at hra
            cases hra
            exact h1
          | cons x xs2 =>
            simp only [List.cons_append, List.cons.injEq] at hsplit
            exact ih o remaining m xs2 ys zs a b hsplit.2 hndrest hmk hbch
        · by_cases h2 : (if r.remainingQuantity < remaining then r.remainingQuantity else remaining) ≤ 0
          · have homap : (matchLevelLimit o remaining price (rid :: rest) m).omap = m := by
              rw [matchLevelLimit, if_neg hg]
              simp only [hlk]
              rw [if_neg h1, if_pos h2]
            rw [homap] at hbch
            exact absurd rfl hbch
          · by_cases h3 : (o.fill (if r.remainingQuantity < remaining then r.remainingQuantity else remaining)).quantity - (o.fill (if r.remainingQuantity < remaining then r.remainingQuantity else remaining)).filledQuantity ≤ 0 ∨
                (o.fill (if r.remainingQuantity < remaining then r.remainingQuantity else remaining)).isFilled = true
            · have homap : (matchLevelLimit o remaining price (rid :: rest) m).omap
                  = setOrder m rid (r.fill (if r.remainingQuantity < remaining then r.remainingQuantity else remaining)) := by
                rw [matchLevelLimit, if_neg hg]
                simp only [hlk]
                rw [if_neg h1, if_neg h2, if_pos h3]
              rw [homap] at hbch
              exact absurd (lookupOrder_setOrder_ne m rid b (r.fill (if r.remainingQuantity < remaining then r.remainingQuantity else remaining)) hbne) hbch
            · by_cases h4 : (r.fill (if r.remainingQuantity < remaining then r.remainingQuantity else remaining)).isFilled = true
              · by_cases h5 : rest.isEmpty
                · exact absurd hbin (by rw [List.isEmpty_iff.mp h5]; simp)
                · have homap : (matchLevelLimit o remaining price (rid :: rest) m).omap
                      = (matchLevelLimit (o.fill (if r.remainingQuantity < remaining then r.remainingQuantity else remaining))
                          ((o.fill (if r.remainingQuantity < remaining then r.remainingQuantity else remaining)).quantity - (o.fill (if r.remainingQuantity < remaining then r.remainingQuantity else remaining)).filledQuantity) price rest
                          (eraseOrder (setOrder m rid (r.fill (if r.remainingQuantity < remaining then r.remainingQuantity else remaining))) rid)).omap := by
                    rw [matchLevelLimit, if_neg hg]
                    simp only [hlk]
                    rw [if_neg h1, if_neg h2, if_neg h3, if_pos h4, if_neg h5]
                  have hm2 : lookupOrder (eraseOrder (setOrder m rid (r.fill (if r.remainingQuantity < remaining then r.remainingQuantity else remaining))) rid) b
                      = lookupOrder m b := by
                    rw [lookupOrder_eraseOrder_ne _ rid b hbne]
                    exact lookupOrder_setOrder_ne m rid b (r.fill (if r.remainingQuantity < remaining then r.remainingQuantity else remaining)) hbne
                  have hm2nodup : (mapKeys (eraseOrder (setOrder m rid (r.fill (if r.remainingQuantity < remaining then r.remainingQuantity else remaining))) rid)).Nodup :=
                    eraseOrder_keys_nodup _ rid (setOrder_keys_nodup m rid (r.fill (if r.remainingQuantity < remaining then r.remainingQuantity else remaining)) hmk)
                  rw [homap] at hbch ⊢
                  cases xs with
                  | nil =>
                    simp only [List.nil_append, List.cons.injEq] at hsplit
                    intro ra hra
                    rw [← hsplit.1] at hra
                    rw [matchLevelLimit_frame _ _ price rest _ rid hridrest] at hra
                    rw [lookupOrder_eraseOrder_self (setOrder m rid (r.fill (if r.remainingQuantity < remaining then r.remainingQuantity else remaining))) rid
                      (setOrder_keys_nodup m rid (r.fill (if r.remainingQuantity < remaining then r.remainingQuantity else remaining)) hmk)] at hra
                    cases hra
                  | cons x xs2 =>
                    simp only [List.cons_append, List.cons.injEq] at hsplit
                    rw [← hm2] at hbch
                    exact ih (o.fill (if r.remainingQuantity < remaining then r.remainingQuantity else remaining)) _ _ xs2 ys zs a b hsplit.2 hndrest hm2nodup hbch
              · have homap : (matchLevelLimit o remaining price (rid :: rest) m).omap
                    = setOrder m rid (r.fill (if r.remainingQuantity < remaining then r.remainingQuantity else remaining)) := by
                  rw [matchLevelLimit, if_neg hg]
                  simp only [hlk]
                  rw [if_neg h1, if_neg h2, if_neg h3, if_neg h4]
                rw [homap] at hbch
                exact absurd (lookupOrder_setOrder_ne m rid b (r.fill (if r.remainingQuantity < remaining then r.remainingQuantity else remaining)) hbne) hbch

theorem levelsIds_cons (P : PriceLevel) (rest : List PriceLevel) :
    levelsIds (P :: rest) = P.orders ++ levelsIds rest := by
  simp [levelsIds]

theorem mem_levelsIds_of_mem (levels : List PriceLevel) (L : PriceLevel)
    (id : String) (hL : L ∈ levels) (hid : id ∈ L.orders) :
    id ∈ levelsIds levels := by
  simp only [levelsIds, List.mem_join]
  exact ⟨L.orders, List.mem_map.mpr ⟨L, hL, rfl⟩, hid⟩

theorem matchLimitLevels_frame (o : Order) (remaining : Int)
    (levels : List PriceLevel) (m : OrdersMap) (id : String)
    (h : id ∉ levelsIds levels) :
    lookupOrder (matchLimitLevels o remaining levels m).omap id
      = lookupOrder m id := by
  have H := matchLimitLevels_spec o remaining levels m
  exact H.2.2.2.2.2.2.2.2.2.2.1 id h

theorem matchLimitLevels_keys_nodup (levels : List PriceLevel) :
    ∀ (o : Order) (remaining : Int) (m : OrdersMap), (mapKeys m).Nodup →
      (mapKeys (matchLimitLevels o remaining levels m).omap).Nodup := by
  induction levels with
  | nil =>
    intro o remaining m h
    rw [matchLimitLevels]
    split_ifs <;> exact h
  | cons P rest ih =>
    intro o remaining m h
    rw [matchLimitLevels]
    by_cases hg : remaining ≤ 0
    · rw [if_pos hg]
      exact h
    · rw [if_neg hg]
      by_cases hemp : P.orders.isEmpty
      · rw [if_pos hemp]
        exact h
      · rw [if_neg hemp]
        by_cases hcross : priceCrosses o P.price = false
        · rw [if_pos hcross]
          exact h
        · rw [if_neg hcross]
          have hres := matchLevelLimit_keys_nodup o remaining P.price P.orders m h
          by_cases hdel : (matchLevelLimit o remaining P.price P.orders m).deleted = true
          · rw [if_pos hdel]
            by_cases hrm : 0 < (matchLevelLimit o remaining P.price P.orders m).remaining
            · rw [if_pos hrm]
              exact ih _ _ _ hres
            · rw [if_neg hrm]
              exact hres
          · rw [if_neg hdel]
            exact hres

/-- FIFO consumption across the limit walk: if an order `b` queued
behind `a` at some level had its map entry touched, then `a` (queued
before it) ends fully consumed. -/
theorem matchLimitLevels_fifo (levels : List PriceLevel) :
    ∀ (o : Order) (remaining : Int) (m : OrdersMap) (L : PriceLevel)
      (xs ys zs : List String) (a b : String),
      L ∈ levels → L.orders = xs ++ a :: (ys ++ b :: zs) →
      (levelsIds levels).Nodup → (mapKeys m).Nodup →
      lookupOrder (matchLimitLevels o remaining levels m).omap b
        ≠ lookupOrder m b →
      fullyConsumed (matchLimitLevels o remaining levels m).omap a := by
  induction levels with
  | nil =>
    intro o remaining m L xs ys zs a b hL
    cases hL
  | cons P rest ih =>
    intro o remaining m L xs ys zs a b hL hsplit hnid hmk hbch
    rw [levelsIds_cons] at hnid
    rw [List.nodup_append] at hnid
    obtain ⟨hndP, hndRest, hdisj⟩ := hnid
    by_cases hg : remaining ≤ 0
    · have homap : (matchLimitLevels o remaining (P :: rest) m).omap = m := by
        rw [matchLimitLevels, if_pos hg]
      rw [homap] at hbch
      exact absurd rfl hbch
    · by_cases hemp : P.orders.isEmpty
      · have homap : (matchLimitLevels o remaining (P :: rest) m).omap = m := by
          rw [matchLimitLevels, if_neg hg]
          simp only []
          rw [if_pos hemp]
        rw [homap] at hbch
        exact absurd rfl hbch
      · by_cases hcross : priceCrosses o P.price = false
        · have homap : (matchLimitLevels o remaining (P :: rest) m).omap = m := by
            rw [matchLimitLevels, if_neg hg]
            simp only []
            rw [if_neg hemp, if_pos hcross]
          rw [homap] at hbch
          exact absurd rfl hbch
        · by_cases hdel : (matchLevelLimit o remaining P.price P.orders m).deleted = true
          · by_cases hrm : 0 < (matchLevelLimit o remaining P.price P.orders m).remaining
            · have homap : (matchLimitLevels o remaining (P :: rest) m).omap
                  = (matchLimitLevels (matchLevelLimit o remaining P.price P.orders m).order (matchLevelLimit o remaining P.price P.orders m).remaining rest (matchLevelLimit o remaining P.price P.orders m).omap).omap := by
                rw [matchLimitLevels, if_neg hg]
                simp only []
                rw [if_neg hemp, if_neg hcross, if_pos hdel, if_pos hrm]
              rw [homap] at hbch ⊢
              rcases List.mem_cons.mp hL with rfl | hLrest
              · have hbP : b ∈ L.orders := by
                  rw [hsplit]
                  simp
                have haP : a ∈ L.orders := by
                  rw [hsplit]
                  simp
                have hbNotRest : b ∉ levelsIds rest := hdisj hbP
                have haNotRest : a ∉ levelsIds rest := hdisj haP
                rw [matchLimitLevels_frame _ _ rest _ b hbNotRest] at hbch
                have hcons := matchLevelLimit_fifo L.price L.orders o remaining m
                  xs ys zs a b hsplit hndP hmk hbch
                intro ra hra
                rw [matchLimitLevels_frame _ _ rest _ a haNotRest] at hra
                exact hcons ra hra
              · have hbRest : b ∈ levelsIds rest := by
                  apply mem_levelsIds_of_mem rest L b hLrest
                  rw [hsplit]
                  simp
                have hbNotP : b ∉ P.orders := fun hc => hdisj hc hbRest
                have hframe := matchLevelLimit_frame o remaining P.price P.orders m b hbNotP
                rw [← hframe] at hbch
                exact ih (matchLevelLimit o remaining P.price P.orders m).order (matchLevelLimit o remaining P.price P.orders m).remaining (matchLevelLimit o remaining P.price P.orders m).omap L xs ys zs a b hLrest hsplit
                  hndRest (matchLevelLimit_keys_nodup o remaining P.price P.orders m hmk) hbch
            · have homap : (matchLimitLevels o remaining (P :: rest) m).omap
                  = (matchLevelLimit o remaining P.price P.orders m).omap := by
                rw [matchLimitLevels, if_neg hg]
                simp only []
                rw [if_neg hemp, if_neg hcross, if_pos hdel, if_neg hrm]
              rw [homap] at hbch ⊢
              rcases List.mem_cons.mp hL with rfl | hLrest
              · exact matchLevelLimit_fifo L.price L.orders o remaining m
                  xs ys zs a b hsplit hndP hmk hbch
              · have hbRest : b ∈ levelsIds rest := by
                  apply mem_levelsIds_of_mem rest L b hLrest
                  rw [hsplit]
                  simp
                have hbNotP : b ∉ P.orders := fun hc => hdisj hc hbRest
                exact absurd (matchLevelLimit_frame o remaining P.price P.orders m b hbNotP) hbch
          · have homap : (matchLimitLevels o remaining (P :: rest) m).omap
                = (matchLevelLimit o remaining P.price P.orders m).omap := by
              rw [matchLimitLevels, if_neg hg]
              simp only []
              rw [if_neg hemp, if_neg hcross, if_neg hdel]
            rw [homap] at hbch ⊢
            rcases List.mem_cons.mp hL with rfl | hLrest
            · exact matchLevelLimit_fifo L.price L.orders o remaining m
                xs ys zs a b hsplit hndP hmk hbch
            · have hbRest : b ∈ levelsIds rest := by
                apply mem_levelsIds_of_mem rest L b hLrest
                rw [hsplit]
                simp
              have hbNotP : b ∉ P.orders := fun hc => hdisj hc hbRest
              exact absurd (matchLevelLimit_frame o remaining P.price P.orders m b hbNotP) hbch

theorem withOpposing_orders (ob : OrderBook) (s : OrderSide)
    (levels : List PriceLevel) (m : OrdersMap) :
    (withOpposing ob s levels m).orders = m := by
  cases s <;> rfl

theorem addOrder_lookup_ne (ob : OrderBook) (o : Order) (id : String)
    (h : id ≠ o.id) :
    lookupOrder (addOrder ob o).orders id = lookupOrder ob.orders id := by
  cases hside : o.side <;> simp only [addOrder, hside] <;>
    exact lookupOrder_setOrder_ne ob.orders o.id id o h

/-- C5 (amended), general part: for two resting orders `a` before `b`
in the same price-level queue of the opposing side, a limit-order match
consumes `a` fully before touching any quantity of `b`: if `b`'s map
entry changed during the submit, `a` is fully consumed (removed from the
id-map, or left with zero remaining).  Market orders violate this (see
the counterexample): a full fill of a resting order makes the walk drop
the next queued order unconsumed. -/
theorem matchLimitOrder_fifo (ob : OrderBook) (o : Order) (L : PriceLevel)
    (xs ys zs : List String) (a b : String)
    (hL : L ∈ opposing ob o.side)
    (hsplit : L.orders = xs ++ a :: (ys ++ b :: zs))
    (hnid : (levelsIds (opposing ob o.side)).Nodup)
    (hmk : (mapKeys ob.orders).Nodup)
    (hfa : a ≠ o.id) (hfb : b ≠ o.id)
    (hbch : lookupOrder (matchLimitOrder ob o).2.orders b
      ≠ lookupOrder ob.orders b) :
    fullyConsumed (matchLimitOrder ob o).2.orders a := by
  set w := matchLimitLevels o o.quantity (opposing ob o.side) ob.orders with hw
  have W1 : w.order.id = o.id := by
    rw [hw]
    exact (matchLimitLevels_spec o o.quantity (opposing ob o.side) ob.orders).1
  have hkey : ∀ id', id' ≠ o.id →
      lookupOrder (matchLimitOrder ob o).2.orders id' = lookupOrder w.omap id' := by
    intro id' hne
    simp only [matchLimitOrder]
    rw [← hw]
    split_ifs
    · rw [addOrder_lookup_ne _ w.order id' (fun hc => hne (hc.trans W1))]
      rw [withOpposing_orders]
    · rw [addOrder_lookup_ne _ w.order id' (fun hc => hne (hc.trans W1))]
      rw [withOpposing_orders]
    · rw [withOpposing_orders]
  have hb2 : lookupOrder w.omap b ≠ lookupOrder ob.orders b := by
    rw [← hkey b hfb]
    exact hbch
  have hfifo := matchLimitLevels_fifo (opposing ob o.side) o o.quantity ob.orders
    L xs ys zs a b hL hsplit hnid hmk (by rw [← hw] at *; exact hb2)
  rw [← hw] at hfifo
  intro ra hra
  rw [hkey a hfa] at hra
  exact hfifo ra hra

/-- C5 counterexample: three asks of 50 each at 15050, queued in order
`A`, `B`, `C`; a market buy of 100 consumes `A` and then `C`, skipping
`B` entirely — `B` stays in the id-map untouched (remaining 50) while
the later order `C` is fully consumed, contradicting the claim that any
match consumes an earlier order before any quantity of a later one. -/
theorem market_match_consumes_later_order_first :
    (matchMarketOrder threeAskBook (mkMarket "M" .buy 100)).1
      = .ok { status := .filled, filledQuantity := 100, remainingQuantity := 0,
              trades := [⟨15050, 50, "M", "A"⟩, ⟨15050, 50, "M", "C"⟩] } ∧
    lookupOrder (matchMarketOrder threeAskBook (mkMarket "M" .buy 100)).2.orders "B"
      = some (mkSellLimit "B" 15050 50) ∧
    lookupOrder (matchMarketOrder threeAskBook (mkMarket "M" .buy 100)).2.orders "C"
      = none := by
  decide

/-- Witness for C5's amended theorem at the spec's time-priority
scenario: asks 200, 300, 400 queued at 15050 in order `A`, `B`, `C`; a
limit buy of 500 at 15050 touches `B`, so `A` is fully consumed; the
trades are 200 then 300, `C` keeps its 400, and the fully filled `B`
remains queued at the head of the level. -/
theorem matchLimitOrder_fifo_witness :
    fullyConsumed (matchLimitOrder fifoBook (mkBuyLimit "X" 15050 500)).2.orders "A" ∧
    ((matchLimitOrder fifoBook (mkBuyLimit "X" 15050 500)).1.trades.map
        (fun t => (t.price, t.quantity)) = [(15050, 200), (15050, 300)] ∧
      (matchLimitOrder fifoBook (mkBuyLimit "X" 15050 500)).2.asks
        = [⟨15050, ["B", "C"]⟩] ∧
      remainingOf (matchLimitOrder fifoBook (mkBuyLimit "X" 15050 500)).2.orders "C"
        = 400) :=
  ⟨matchLimitOrder_fifo fifoBook (mkBuyLimit "X" 15050 500) ⟨15050, ["A", "B", "C"]⟩
      [] [] ["C"] "A" "B" (by decide) (by decide) (by decide) (by decide)
      (by decide) (by decide) (by decide),
    by decide⟩

theorem removeFirstId_not_mem (q : List String) (id : String) (h : q.Nodup) :
    id ∉ removeFirstId q id := by
  induction q with
  | nil => simp [removeFirstId]
  | cons x rest ih =>
    rw [List.nodup_cons] at h
    by_cases hx : x = id
    · simp only [removeFirstId, if_pos hx]
      rw [← hx]
      exact h.1
    · simp only [removeFirstId, if_neg hx, List.mem_cons]
      push_neg
      exact ⟨fun hc => hx hc.symm, ih h.2⟩

theorem removeFirstId_subset (q : List String) (id k : String)
    (h : k ∈ removeFirstId q id) : k ∈ q := by
  induction q with
  | nil => simpa [removeFirstId] using h
  | cons x rest ih =>
    by_cases hx : x = id
    · simp only [removeFirstId, if_pos hx] at h
      exact List.mem_cons_of_mem x h
    · simp only [removeFirstId, if_neg hx, List.mem_cons] at h ⊢
      rcases h with h | h
      · exact Or.inl h
      · exact Or.inr (ih h)

theorem removeFromLevels_not_mem (levels : List PriceLevel) (p : Int) (id : String)
    (hnd : (levelsIds levels).Nodup)
    (hdistinct : levels.Pairwise (fun A B => A.price ≠ B.price))
    (hplace : ∀ L ∈ levels, id ∈ L.orders → L.price = p) :
    id ∉ levelsIds (removeFromLevels levels p id) := by
  induction levels with
  | nil => simp [removeFromLevels, levelsIds]
  | cons L rest ih =>
    rw [levelsIds_cons, List.nodup_append] at hnd
    rw [List.pairwise_cons] at hdistinct
    by_cases hp : L.price = p
    · simp only [removeFromLevels, if_pos hp]
      have hrest : id ∉ levelsIds rest := by
        intro hc
        simp only [levelsIds, List.mem_join] at hc
        obtain ⟨q, hq, hidq⟩ := hc
        obtain ⟨M, hM, rfl⟩ := List.mem_map.mp hq
        have := hplace M (List.mem_cons_of_mem L hM) hidq
        exact hdistinct.1 M hM (hp.trans this.symm)
      by_cases hq : (removeFirstId L.orders id).isEmpty
      · rw [if_pos hq]
        exact hrest
      · rw [if_neg hq]
        rw [levelsIds_cons]
        intro hc
        rcases List.mem_append.mp hc with hc | hc
        · exact removeFirstId_not_mem L.orders id hnd.1 hc
        · exact hrest hc
    · simp only [removeFromLevels, if_neg hp]
      rw [levelsIds_cons]
      intro hc
      rcases List.mem_append.mp hc with hc | hc
      · exact hp (hplace L (List.mem_cons_self L rest) hc)
      · exact ih hnd.2.1 hdistinct.2 (fun M hM hidM =>
          hplace M (List.mem_cons_of_mem L hM) hidM) hc

theorem removeFromLevels_noEmpty (levels : List PriceLevel) (p : Int) (id : String)
    (h : ∀ L ∈ levels, L.orders ≠ []) :
    ∀ L ∈ removeFromLevels levels p id, L.orders ≠ [] := by
  induction levels with
  | nil => simp [removeFromLevels]
  | cons L rest ih =>
    by_cases hp : L.price = p
    · simp only [removeFromLevels, if_pos hp]
      by_cases hq : (removeFirstId L.orders id).isEmpty
      · rw [if_pos hq]
        exact fun M hM => h M (List.mem_cons_of_mem L hM)
      · rw [if_neg hq]
        intro M hM
        rcases List.mem_cons.mp hM with rfl | hM
        · intro hc
          have hc2 : removeFirstId L.orders id = [] := hc
          rw [hc2] at hq
          exact hq rfl
        · exact h M (List.mem_cons_of_mem L hM)
    · simp only [removeFromLevels, if_neg hp]
      intro M hM
      rcases List.mem_cons.mp hM with rfl | hM
      · exact h M (List.mem_cons_self M rest)
      · exact ih (fun N hN => h N (List.mem_cons_of_mem L hN)) M hM

theorem findLevel_isSome_of_mem (levels : List PriceLevel) (M : PriceLevel)
    (p : Int) (hM : M ∈ levels) (hp : M.price = p) :
    findLevel levels p ≠ none := by
  induction levels with
  | nil => cases hM
  | cons L rest ih =>
    rcases List.mem_cons.mp hM with rfl | hM
    · simp [findLevel, List.find?_cons, hp]
    · by_cases hL : L.price = p
      · simp [findLevel, List.find?_cons, hL]
      · simp only [findLevel, List.find?_cons, decide_eq_false hL]
        exact ih hM

/-- The book invariant used by the cancellation claim. -/
structure BookWF (ob : OrderBook) : Prop where
  keysNodup : (mapKeys ob.orders).Nodup
  idsNodup : (levelsIds ob.bids ++ levelsIds ob.asks).Nodup
  placedBid : ∀ L ∈ ob.bids, ∀ id ∈ L.orders,
    ∃ r, lookupOrder ob.orders id = some r ∧ r.side = .buy ∧ r.price = L.price
  placedAsk : ∀ L ∈ ob.asks, ∀ id ∈ L.orders,
    ∃ r, lookupOrder ob.orders id = some r ∧ r.side = .sell ∧ r.price = L.price
  bidPrices : ob.bids.Pairwise (fun A B => A.price ≠ B.price)
  askPrices : ob.asks.Pairwise (fun A B => A.price ≠ B.price)

/-- `RemoveOrder` on a well-formed book leaves the id unreachable: gone
from the id-map and from every price-level queue; and it leaves no
empty price level behind. -/
theorem removeOrder_clears (ob : OrderBook) (id : String) (hwf : BookWF ob) :
    lookupOrder (removeOrder ob id).2.orders id = none ∧
    id ∉ levelsIds (removeOrder ob id).2.bids ∧
    id ∉ levelsIds (removeOrder ob id).2.asks ∧
    ((∀ L ∈ ob.bids, L.orders ≠ []) →
      ∀ L ∈ (removeOrder ob id).2.bids, L.orders ≠ []) ∧
    ((∀ L ∈ ob.asks, L.orders ≠ []) →
      ∀ L ∈ (removeOrder ob id).2.asks, L.orders ≠ []) := by
  have hndb : (levelsIds ob.bids).Nodup := (List.nodup_append.mp hwf.idsNodup).1
  have hnda : (levelsIds ob.asks).Nodup := (List.nodup_append.mp hwf.idsNodup).2.1
  cases hlk : lookupOrder ob.orders id with
  | none =>
    have hnotb : id ∉ levelsIds ob.bids := by
      intro hc
      simp only [levelsIds, List.mem_join] at hc
      obtain ⟨q, hq, hidq⟩ := hc
      obtain ⟨M, hM, rfl⟩ := List.mem_map.mp hq
      obtain ⟨r, hr, _⟩ := hwf.placedBid M hM id hidq
      rw [hlk] at hr
      cases hr
    have hnota : id ∉ levelsIds ob.asks := by
      intro hc
      simp only [levelsIds, List.mem_join] at hc
      obtain ⟨q, hq, hidq⟩ := hc
      obtain ⟨M, hM, rfl⟩ := List.mem_map.mp hq
      obtain ⟨r, hr, _⟩ := hwf.placedAsk M hM id hidq
      rw [hlk] at hr
      cases hr
    have hob : (removeOrder ob id).2 = ob := by
      rw [removeOrder, hlk]
    rw [hob]
    exact ⟨hlk, hnotb, hnota, fun h => h, fun h => h⟩
  | some o =>
    have herase : lookupOrder (eraseOrder ob.orders id) id = none :=
      lookupOrder_eraseOrder_self ob.orders id hwf.keysNodup
    cases hside : o.side with
    | buy =>
      have hplaceb : ∀ L ∈ ob.bids, id ∈ L.orders → L.price = o.price := by
        intro L hL hidL
        obtain ⟨r, hr, _, hrp⟩ := hwf.placedBid L hL id hidL
        rw [hlk] at hr
        cases hr
        exact hrp.symm ▸ hrp
      have hnota : id ∉ levelsIds ob.asks := by
        intro hc
        simp only [levelsIds, List.mem_join] at hc
        obtain ⟨q, hq, hidq⟩ := hc
        obtain ⟨M, hM, rfl⟩ := List.mem_map.mp hq
        obtain ⟨r, hr, hrs, _⟩ := hwf.placedAsk M hM id hidq
        rw [hlk] at hr
        cases hr
        rw [hside] at hrs
        cases hrs
      cases hfl : findLevel ob.bids o.price with
      | none =>
        have hnotb : id ∉ levelsIds ob.bids := by
          intro hc
          simp only [levelsIds, List.mem_join] at hc
          obtain ⟨q, hq, hidq⟩ := hc
          obtain ⟨M, hM, rfl⟩ := List.mem_map.mp hq
          exact findLevel_isSome_of_mem ob.bids M o.price hM (hplaceb M hM hidq) hfl
        have hob : (removeOrder ob id).2 = { ob with orders := eraseOrder ob.orders id } := by
          rw [removeOrder, hlk]
          simp only [hside, hfl]
        rw [hob]
        exact ⟨herase, hnotb, hnota, fun h => h, fun h => h⟩
      | some P =>
        have hob : (removeOrder ob id).2
            = ⟨ob.symbol, removeFromLevels ob.bids o.price id, ob.asks,
                eraseOrder ob.orders id⟩ := by
          rw [removeOrder, hlk]
          simp only [hside, hfl]
        rw [hob]
        refine ⟨herase, ?_, hnota, ?_, fun h => h⟩
        · exact removeFromLevels_not_mem ob.bids o.price id hndb hwf.bidPrices hplaceb
        · exact fun h => removeFromLevels_noEmpty ob.bids o.price id h
    | sell =>
      have hplacea : ∀ L ∈ ob.asks, id ∈ L.orders → L.price = o.price := by
        intro L hL hidL
        obtain ⟨r, hr, _, hrp⟩ := hwf.placedAsk L hL id hidL
        rw [hlk] at hr
        cases hr
        exact hrp.symm ▸ hrp
      have hnotb : id ∉ levelsIds ob.bids := by
        intro hc
        simp only [levelsIds, List.mem_join] at hc
        obtain ⟨q, hq, hidq⟩ := hc
        obtain ⟨M, hM, rfl⟩ := List.mem_map.mp hq
        obtain ⟨r, hr, hrs, _⟩ := hwf.placedBid M hM id hidq
        rw [hlk] at hr
        cases hr
        rw [hside] at hrs
        cases hrs
      cases hfl : findLevel ob.asks o.price with
      | none =>
        have hnota : id ∉ levelsIds ob.asks := by
          intro hc
          simp only [levelsIds, List.mem_join] at hc
          obtain ⟨q, hq, hidq⟩ := hc
          obtain ⟨M, hM, rfl⟩ := List.mem_map.mp hq
          exact findLevel_isSome_of_mem ob.asks M o.price hM (hplacea M hM hidq) hfl
        have hob : (removeOrder ob id).2 = { ob with orders := eraseOrder ob.orders id } := by
          rw [removeOrder, hlk]
          simp only [hside, hfl]
        rw [hob]
        exact ⟨herase, hnotb, hnota, fun h => h, fun h => h⟩
      | some P =>
        have hob : (removeOrder ob id).2
            = ⟨ob.symbol, ob.bids, removeFromLevels ob.asks o.price id,
                eraseOrder ob.orders id⟩ := by
          rw [removeOrder, hlk]
          simp only [hside, hfl]
        rw [hob]
        refine ⟨herase, hnotb, ?_, fun h => h, ?_⟩
        · exact removeFromLevels_not_mem ob.asks o.price id hnda hwf.askPrices hplacea
        · exact fun h => removeFromLevels_noEmpty ob.asks o.price id h

theorem not_in_queues_of_lookup_none (ob : OrderBook) (id : String)
    (hwf : BookWF ob) (h : lookupOrder ob.orders id = none) :
    id ∉ levelsIds ob.bids ∧ id ∉ levelsIds ob.asks := by
  constructor
  · intro hc
    simp only [levelsIds, List.mem_join] at hc
    obtain ⟨q, hq, hidq⟩ := hc
    obtain ⟨M, hM, rfl⟩ := List.mem_map.mp hq
    obtain ⟨r, hr, _⟩ := hwf.placedBid M hM id hidq
    rw [h] at hr
    cases hr
  · intro hc
    simp only [levelsIds, List.mem_join] at hc
    obtain ⟨q, hq, hidq⟩ := hc
    obtain ⟨M, hM, rfl⟩ := List.mem_map.mp hq
    obtain ⟨r, hr, _⟩ := hwf.placedAsk M hM id hidq
    rw [h] at hr
    cases hr

theorem cancelOrder_of_all_none (books : List OrderBook) (id : String)
    (h : ∀ ob ∈ books, lookupOrder ob.orders id = none) :
    cancelOrder books id = (.notFound, books) := by
  induction books with
  | nil => rfl
  | cons ob obs ih =>
    rw [cancelOrder, h ob (List.mem_cons_self ob obs),
      ih (fun b hb => h b (List.mem_cons_of_mem ob hb))]

theorem statusLookup_of_all_none (books : List OrderBook) (id : String)
    (h : ∀ ob ∈ books, lookupOrder ob.orders id = none) :
    statusLookup books id = none := by
  induction books with
  | nil => rfl
  | cons ob obs ih =>
    rw [statusLookup, h ob (List.mem_cons_self ob obs)]
    exact ih (fun b hb => h b (List.mem_cons_of_mem ob hb))

/-- C7: cancel succeeds exactly when the id is indexed in some book with
a non-Filled status (a PartialFill order cancels); a Filled indexed
order fails AlreadyFilled, an unknown id fails OrderNotFound (both
without mutation); and after a successful cancel the id is reachable
through no index of any book, so a subsequent status lookup or cancel on
the same id reports not-found.  Hypotheses: each book is well-formed and
at most one book indexes the id. -/
theorem cancelOrder_spec (books : List OrderBook) (id : String)
    (hwf : ∀ ob ∈ books, BookWF ob)
    (huniq : books.Pairwise (fun ob1 ob2 =>
      lookupOrder ob1.orders id = none ∨ lookupOrder ob2.orders id = none)) :
    ((cancelOrder books id).1 = .cancelled ↔
      ∃ ob ∈ books, ∃ r, lookupOrder ob.orders id = some r ∧ r.status ≠ .filled) ∧
    ((cancelOrder books id).1 = .alreadyFilled ↔
      ∃ ob ∈ books, ∃ r, lookupOrder ob.orders id = some r ∧ r.status = .filled) ∧
    ((cancelOrder books id).1 = .notFound ↔
      ∀ ob ∈ books, lookupOrder ob.orders id = none) ∧
    ((cancelOrder books id).1 = .alreadyFilled → (cancelOrder books id).2 = books) ∧
    ((cancelOrder books id).1 = .notFound → (cancelOrder books id).2 = books) ∧
    ((cancelOrder books id).1 = .cancelled →
      (∀ ob' ∈ (cancelOrder books id).2, lookupOrder ob'.orders id = none ∧
        id ∉ levelsIds ob'.bids ∧ id ∉ levelsIds ob'.asks) ∧
      statusLookup (cancelOrder books id).2 id = none ∧
      (cancelOrder (cancelOrder books id).2 id).1 = .notFound) := by
  induction books with
  | nil =>
    refine ⟨?_, ?_, ?_, ?_, ?_, ?_⟩ <;> simp [cancelOrder]
  | cons ob obs ih =>
    rw [List.pairwise_cons] at huniq
    have hwfHead := hwf ob (List.mem_cons_self ob obs)
    have hwfTail := fun b hb => hwf b (List.mem_cons_of_mem ob hb)
    have IH := ih hwfTail huniq.2
    cases hlk : lookupOrder ob.orders id with
    | some o =>
      have hobsNone : ∀ b ∈ obs, lookupOrder b.orders id = none := by
        intro b hb
        rcases huniq.1 b hb with h | h
        · rw [hlk] at h
          cases h
        · exact h
      by_cases hst : o.status = .filled
      · have hcan : cancelOrder (ob :: obs) id = (.alreadyFilled, ob :: obs) := by
          rw [cancelOrder, hlk]
          simp only [if_pos hst]
        rw [hcan]
        refine ⟨?_, ?_, ?_, fun _ => rfl, ?_, ?_⟩
        · simp only [reduceCtorEq, false_iff]
          push_neg
          intro b hb r hr
          rcases List.mem_cons.mp hb with rfl | hb
          · rw [hlk] at hr
            cases hr
            simpa using hst
          · rw [hobsNone b hb] at hr
            cases hr
        · simp only [true_iff]
          exact ⟨ob, List.mem_cons_self ob obs, o, hlk, hst⟩
        · simp only [reduceCtorEq, false_iff]
          push_neg
          exact ⟨ob, List.mem_cons_self ob obs, by rw [hlk]; simp⟩
        · intro hc
          cases hc
        · intro hc
          cases hc
      · have hcan : cancelOrder (ob :: obs) id = (.cancelled, (removeOrder ob id).2 :: obs) := by
          rw [cancelOrder, hlk]
          simp only [if_neg hst]
        rw [hcan]
        have hclear := removeOrder_clears ob id hwfHead
        refine ⟨?_, ?_, ?_, ?_, ?_, ?_⟩
        · simp only [true_iff]
          exact ⟨ob, List.mem_cons_self ob obs, o, hlk, hst⟩
        · simp only [reduceCtorEq, false_iff]
          push_neg
          intro b hb r hr
          rcases List.mem_cons.mp hb with rfl | hb
          · rw [hlk] at hr
            cases hr
            intro hc
            exact hst hc
          · rw [hobsNone b hb] at hr
            cases hr
        · simp only [reduceCtorEq, false_iff]
          push_neg
          exact ⟨ob, List.mem_cons_self ob obs, by rw [hlk]; simp⟩
        · intro hc
          cases hc
        · intro hc
          cases hc
        · intro _
          have hall : ∀ ob' ∈ (removeOrder ob id).2 :: obs,
              lookupOrder ob'.orders id = none ∧
              id ∉ levelsIds ob'.bids ∧ id ∉ levelsIds ob'.asks := by
            intro ob' hob'
            rcases List.mem_cons.mp hob' with rfl | hob'
            · exact ⟨hclear.1, hclear.2.1, hclear.2.2.1⟩
            · have hnone := hobsNone ob' hob'
              have := not_in_queues_of_lookup_none ob' id (hwfTail ob' hob') hnone
              exact ⟨hnone, this.1, this.2⟩
          refine ⟨hall, ?_, ?_⟩
          · exact statusLookup_of_all_none _ id (fun b hb => (hall b hb).1)
          · rw [cancelOrder_of_all_none _ id (fun b hb => (hall b hb).1)]
    | none =>
      have hcan1 : (cancelOrder (ob :: obs) id).1 = (cancelOrder obs id).1 := by
        rw [cancelOrder, hlk]
      have hcan2 : (cancelOrder (ob :: obs) id).2 = ob :: (cancelOrder obs id).2 := by
        rw [cancelOrder, hlk]
      obtain ⟨I1, I2, I3, I4, I5, I6⟩ := IH
      refine ⟨?_, ?_, ?_, ?_, ?_, ?_⟩
      · rw [hcan1, I1]
        constructor
        · intro ⟨b, hb, r, hr, hrs⟩
          exact ⟨b, List.mem_cons_of_mem ob hb, r, hr, hrs⟩
        · intro ⟨b, hb, r, hr, hrs⟩
          rcases List.mem_cons.mp hb with rfl | hb
          · rw [hlk] at hr
            cases hr
          · exact ⟨b, hb, r, hr, hrs⟩
      · rw [hcan1, I2]
        constructor
        · intro ⟨b, hb, r, hr, hrs⟩
          exact ⟨b, List.mem_cons_of_mem ob hb, r, hr, hrs⟩
        · intro ⟨b, hb, r, hr, hrs⟩
          rcases List.mem_cons.mp hb with rfl | hb
          · rw [hlk] at hr
            cases hr
          · exact ⟨b, hb, r, hr, hrs⟩
      · rw [hcan1, I3]
        constructor
        · intro h b hb
          rcases List.mem_cons.mp hb with rfl | hb
          · exact hlk
          · exact h b hb
        · intro h b hb
          exact h b (List.mem_cons_of_mem ob hb)
      · intro h
        rw [hcan2, I4 (by rw [← hcan1]; exact h)]
      · intro h
        rw [hcan2, I5 (by rw [← hcan1]; exact h)]
      · intro h
        rw [hcan1] at h
        obtain ⟨J1, J2, J3⟩ := I6 h
        have hall : ∀ ob' ∈ ob :: (cancelOrder obs id).2,
            lookupOrder ob'.orders id = none ∧
            id ∉ levelsIds ob'.bids ∧ id ∉ levelsIds ob'.asks := by
          intro ob' hob'
          rcases List.mem_cons.mp hob' with rfl | hob'
          · have := not_in_queues_of_lookup_none ob' id hwfHead hlk
            exact ⟨hlk, this.1, this.2⟩
          · exact J1 ob' hob'
        rw [hcan2]
        refine ⟨hall, ?_, ?_⟩
        · exact statusLookup_of_all_none _ id (fun b hb => (hall b hb).1)
        · rw [cancelOrder_of_all_none _ id (fun b hb => (hall b hb).1)]

/-- A book holding one partially filled resting ask `"P"`. -/
def cancelBook : OrderBook :=
  ⟨"AAPL", [], [⟨15050, ["P"]⟩],
    [("P", ⟨"P", "AAPL", .sell, .limit, 15050, 100, 30, .partialFill⟩)]⟩

/-- Witness for C7: cancelling the partially filled order `"P"` in the
one-book list built around `cancelBook`. -/
theorem cancelOrder_spec_witness :
    ((cancelOrder [cancelBook] "P").1 = .cancelled ↔
      ∃ ob ∈ [cancelBook], ∃ r, lookupOrder ob.orders "P" = some r ∧
        r.status ≠ .filled) ∧
    ((cancelOrder [cancelBook] "P").1 = .alreadyFilled ↔
      ∃ ob ∈ [cancelBook], ∃ r, lookupOrder ob.orders "P" = some r ∧
        r.status = .filled) ∧
    ((cancelOrder [cancelBook] "P").1 = .notFound ↔
      ∀ ob ∈ [cancelBook], lookupOrder ob.orders "P" = none) ∧
    ((cancelOrder [cancelBook] "P").1 = .alreadyFilled →
      (cancelOrder [cancelBook] "P").2 = [cancelBook]) ∧
    ((cancelOrder [cancelBook] "P").1 = .notFound →
      (cancelOrder [cancelBook] "P").2 = [cancelBook]) ∧
    ((cancelOrder [cancelBook] "P").1 = .cancelled →
      (∀ ob' ∈ (cancelOrder [cancelBook] "P").2,
        lookupOrder ob'.orders "P" = none ∧
        "P" ∉ levelsIds ob'.bids ∧ "P" ∉ levelsIds ob'.asks) ∧
      statusLookup (cancelOrder [cancelBook] "P").2 "P" = none ∧
      (cancelOrder (cancelOrder [cancelBook] "P").2 "P").1 = .notFound) :=
  cancelOrder_spec [cancelBook] "P"
    (by
      intro ob hob
      rw [List.mem_singleton] at hob
      subst hob
      refine ⟨by decide, by decide, ?_, ?_, by decide, by decide⟩
      · intro L hL
        rw [show cancelBook.bids = [] from rfl] at hL
        cases hL
      · intro L hL oid hoid
        rw [show cancelBook.asks = [⟨15050, ["P"]⟩] from rfl,
          List.mem_singleton] at hL
        subst hL
        rw [show (PriceLevel.mk 15050 ["P"]).orders = ["P"] from rfl,
          List.mem_singleton] at hoid
        subst hoid
        exact ⟨⟨"P", "AAPL", .sell, .limit, 15050, 100, 30, .partialFill⟩,
          by decide, by decide, by decide⟩)
    (by simp)

end MatchEngine
